import Mathlib

/-!
Verification of the row-pattern-recognition (RPR) engine: a shallow
embedding of `src/parser.js` (pattern compiler) and `src/nfa.js` (NFA
executor and emitter) of the `nfa` repository, together with theorems
settling the specification claims.

Modelling conventions:
* JavaScript numbers holding repetition bounds are `Nat`, with
  `Infinity` rendered as `none : Option Nat`.
* `varId` keeps the source encoding: a variable id `≥ 0`, or the
  markers `-1` (`#ALT`), `-2` (`#END`), `-3` (`#FIN`), as an `Int`.
* `elementIndex` is an `Int` so the completion sentinel `-1` is
  representable.
* Unbounded `while` loops and the recursive transition functions are
  given an explicit fuel argument; the executor instantiates the fuel
  with bounds that are ample for every terminating source execution
  (the JS engine itself diverges on patterns such as `(A*)*`, which no
  fuel value can or needs to reproduce).
* The per-row diagnostic material of the source (`log` strings, the
  `history` snapshots, the metadata wrappers around dead/discarded
  states) is observability only — the spec's §6 says it "must not gate
  correctness" — and is reduced to the data the claims mention: the
  dead states themselves and the paths deferred by the greedy branch.
* `Summary.aggregates` is always the empty object in `src/nfa.js`
  (nothing ever writes a key into it), so `aggregatesEqual` is
  constantly true and a summary is represented by its `paths` list;
  `mergeSummaries` consequently merges into the first summary exactly
  as the source's first-match-by-aggregates search does.
-/

set_option maxHeartbeats 1600000
set_option maxRecDepth 4096

namespace RPR

/-! ## Pattern data model (src/parser.js, `PatternElement` / `Pattern`) -/

/-- One slot of the compiled program.  Field defaults match the
`PatternElement` constructor: `varId` given, `depth 0`, `min 1`,
`max 1`, `next -1`, `jump -1`, `reluctant false`. -/
structure PatternElement where
  varId : Int
  depth : Nat := 0
  min : Nat := 1
  max : Option Nat := some 1
  next : Int := -1
  jump : Int := -1
  reluctant : Bool := false
deriving DecidableEq, Repr, Inhabited

namespace PatternElement

def isVar (e : PatternElement) : Bool := 0 ≤ e.varId

def isAltStart (e : PatternElement) : Bool := e.varId = -1

def isGroupEnd (e : PatternElement) : Bool := e.varId = -2

def isFinish (e : PatternElement) : Bool := e.varId = -3

/-- `c >= elem.max` with `max` possibly `Infinity` (`none`). -/
def geMax (c : Nat) (m : Option Nat) : Bool :=
  match m with
  | none => false
  | some m => m ≤ c

end PatternElement

/-- A compiled pattern (`Pattern` plus the `maxDepth` / `reluctant`
fields that `compileAST` fills in).  The source field `variables` is
named `vars` here because `variables` is a reserved word in Lean. -/
structure Pattern where
  elements : List PatternElement := []
  vars : List String := []
  maxDepth : Nat := 0
  reluctant : Bool := false
deriving DecidableEq, Repr, Inhabited

/-! ## Tokenizer (src/parser.js, `tokenize`) -/

inductive Token where
  | lparen
  | rparen
  | altTok
  | varTok (name : String)
  | quant (min : Nat) (max : Option Nat) (reluctant : Bool)
deriving DecidableEq, Repr, Inhabited

/-- The `lastToken` tracking variable of `tokenize` (`null` = `none`). -/
inductive TokKind where
  | lp | rp | alt | var | quant
deriving DecidableEq, Repr

/-- Decimal value of a digit list. -/
def digitsToNat (l : List Char) : Nat :=
  l.foldl (fun acc c => acc * 10 + (c.toNat - '0'.toNat)) 0

/-- JS `parseInt` on an already-trimmed char list: optional sign, then
the longest prefix of digits; `NaN` (here `none`) when no digit
leads. -/
def jsParseInt (chars : List Char) : Option Int :=
  let (sign, rest) :=
    match chars with
    | '-' :: r => ((-1 : Int), r)
    | '+' :: r => ((1 : Int), r)
    | r => ((1 : Int), r)
  let digits := rest.takeWhile Char.isDigit
  if digits.isEmpty then none
  else some (sign * (Int.ofNat (digitsToNat digits)))

/-- The whitespace JS `trim` strips, restricted to the characters a
pattern string can contain. -/
def isTrimChar (c : Char) : Bool := c = ' ' ∨ c = '\t'

/-- JS `String.trim` over a char list. -/
def trimChars (l : List Char) : List Char :=
  ((l.dropWhile isTrimChar).reverse.dropWhile isTrimChar).reverse

/-- JS `String.split(sep)` over a char list. -/
def splitChars (sep : Char) : List Char → List (List Char)
  | [] => [[]]
  | c :: rest =>
    let r := splitChars sep rest
    if c = sep then [] :: r
    else
      match r with
      | first :: more => (c :: first) :: more
      | [] => [[c]]

/-- ASCII uppercase (JS `toUpperCase` on the `[A-Za-z0-9_]` names the
tokenizer produces). -/
def charUpper (c : Char) : Char :=
  if 'a' ≤ c ∧ c ≤ 'z' then Char.ofNat (c.toNat - 32) else c

def isAlphaChar (c : Char) : Bool :=
  ('A' ≤ c ∧ c ≤ 'Z') ∨ ('a' ≤ c ∧ c ≤ 'z')

def isWordChar (c : Char) : Bool :=
  isAlphaChar c ∨ c.isDigit ∨ c = '_'

/-- Set `reluctant` on the last pushed token (the `tokens[len-1].reluctant
= true` mutation); the accumulator is kept reversed, so the last token is
the head. -/
def setLastReluctant : List Token → List Token
  | Token.quant mn mx _ :: rest => Token.quant mn mx true :: rest
  | toks => toks

/-- Parse the inside of a `\x7b … \x7d` quantifier: `range` is the text
between the braces.  Returns the `(min, max)` pair or the error raised. -/
def parseQuantRange (range : List Char) : Except String (Nat × Option Nat) := do
  if trimChars range = [] then
    throw "Empty quantifier is not allowed."
  let parts := splitChars ',' range
  if parts.length > 2 then
    throw "Invalid quantifier, expected n or n,m format."
  let minStr := trimChars (parts.headD [])
  let mn : Int ←
    if minStr = [] ∧ parts.length > 1 then
      pure 0
    else
      match jsParseInt minStr with
      | none => throw "Invalid quantifier, expected number."
      | some v =>
        if v < 0 then throw "Quantifier must have non-negative values."
        else pure v
  if parts.length > 1 then
    let maxStr := trimChars (parts.getD 1 [])
    if maxStr = [] then
      return (mn.toNat, none)
    else
      match jsParseInt maxStr with
      | none => throw "Invalid quantifier, expected number for max."
      | some v => do
        if v < 0 then throw "Quantifier must have non-negative values."
        if v = 0 then throw "Quantifier max value must be greater than 0."
        if mn > v then throw "Quantifier min cannot exceed max."
        return (mn.toNat, some v.toNat)
  else
    if mn = 0 then throw "Quantifier 0 is not allowed. Use * or ? instead."
    else return (mn.toNat, some mn.toNat)

/-- The tokenizer main loop; `acc` holds the tokens in reverse order.
Fuel decreases once per loop iteration; each iteration consumes at least
one character, so `chars.length + 1` fuel is always enough. -/
def tokenizeGo : Nat → List Char → Option TokKind → List Token →
    Except String (List Token)
  | 0, _, _, _ => throw "tokenizer fuel exhausted"
  | _ + 1, [], _, acc => return acc.reverse
  | fuel + 1, c :: cs, lastToken, acc =>
    if c = ' ' ∨ c = '\t' then
      tokenizeGo fuel cs lastToken acc
    else if c = '(' then
      tokenizeGo fuel cs (some .lp) (Token.lparen :: acc)
    else if c = ')' then
      if lastToken = some .lp then
        throw "Empty group is not allowed."
      else if lastToken = some .alt then
        throw "Empty alternation before close paren is not allowed."
      else
        tokenizeGo fuel cs (some .rp) (Token.rparen :: acc)
    else if c = '|' then
      if lastToken = none then
        throw "Pattern cannot start with |"
      else if lastToken = some .alt then
        throw "Empty alternation (consecutive ||) is not allowed."
      else if lastToken = some .lp then
        throw "Alternation cannot immediately follow ("
      else
        tokenizeGo fuel cs (some .alt) (Token.altTok :: acc)
    else if c = '?' ∨ c = '*' ∨ c = '+' ∨ c = '\x7b' then
      if c = '?' ∧ lastToken = some .quant then
        tokenizeGo fuel cs lastToken (setLastReluctant acc)
      else if lastToken ≠ some .var ∧ lastToken ≠ some .rp then
        throw "Quantifier must follow a variable or group."
      else if c = '?' then
        tokenizeGo fuel cs (some .quant) (Token.quant 0 (some 1) false :: acc)
      else if c = '*' then
        tokenizeGo fuel cs (some .quant) (Token.quant 0 none false :: acc)
      else if c = '+' then
        tokenizeGo fuel cs (some .quant) (Token.quant 1 none false :: acc)
      else
        -- `\x7b` quantifier: scan to the closing `\x7d`
        if cs.headD ' ' = '-' then
          throw "Exclusion syntax is not supported."
        else
          let rangeChars := cs.takeWhile (· ≠ '\x7d')
          if rangeChars.length = cs.length then
            throw "Unclosed quantifier, missing close brace."
          else do
            let (mn, mx) ← parseQuantRange rangeChars
            -- chars after the closing brace
            let rest := cs.drop (rangeChars.length + 1)
            let (rel, rest) :=
              match rest with
              | '?' :: r => (true, r)
              | r => (false, r)
            tokenizeGo fuel rest (some .quant) (Token.quant mn mx rel :: acc)
    else if isAlphaChar c then
      let nameChars := (c :: cs).takeWhile isWordChar
      if nameChars.map charUpper = "PERMUTE".data then
        throw "PERMUTE is not supported."
      else
        tokenizeGo fuel ((c :: cs).drop nameChars.length) (some .var)
          (Token.varTok (String.mk nameChars) :: acc)
    else if c = '&' then
      throw "AND operator is not supported."
    else if c = '^' ∨ c = '$' then
      throw "Anchors are not supported."
    else
      throw ("Invalid character " ++ String.mk [c])

/-- Parenthesis-balance check run over the finished token stream. -/
def parenBalance : List Token → Int → Except String Unit
  | [], n => if n > 0 then throw "Unclosed parenthesis." else return ()
  | t :: ts, n =>
    let n' : Int :=
      match t with
      | Token.lparen => n + 1
      | Token.rparen => n - 1
      | _ => n
    if n' < 0 then throw "Unmatched closing parenthesis."
    else parenBalance ts n'

/-- `tokenize` (src/parser.js): characters to tokens, with the
context-sensitive rejections, the trailing-`|` check and the
parenthesis-balance check. -/
def tokenize (s : String) : Except String (List Token) := do
  let chars := s.data
  -- the final lastToken is re-derived from the produced token list
  let toks ← tokenizeGo (chars.length + 1) chars none []
  match toks.getLast? with
  | some Token.altTok => throw "Pattern cannot end with |"
  | _ => do
    parenBalance toks 0
    return toks

/-! ## AST (src/parser.js §4.1.2) -/

/-- The four AST node variants.  `min`/`max` live on `var` and `group`;
`max = none` is `Infinity`. -/
inductive AST where
  | var (name : String) (min : Nat) (max : Option Nat) (reluctant : Bool)
  | group (content : AST) (min : Nat) (max : Option Nat) (reluctant : Bool)
  | seq (items : List AST)
  | alt (alternatives : List AST)
deriving Repr, Inhabited

/-! ## AST parser (src/parser.js, `parseItem` / `parseSequence` /
`handleAlternation` / `extractQuantifier`)

The JS code walks the token array with a mutable cursor; here each
function takes the remaining token list and returns what is left.  The
`variables` accumulator threaded by the JS parser is dropped: its result
is discarded by `parsePattern` (which re-collects the variables in
`compileAST`). -/

/-- `extractQuantifier`: consume a leading quantifier token, defaulting
to `(1,1,false)`. -/
def extractQuantifier : List Token → (Nat × Option Nat × Bool) × List Token
  | Token.quant mn mx r :: rest => ((mn, mx, r), rest)
  | toks => ((1, some 1, false), toks)

/-- The mutually recursive parser procedures (`parseItem`,
`parseSequence`'s loop, `handleAlternation`'s two loops), represented as
call descriptors of one fuel-structural function so that the kernel can
evaluate concrete parses. -/
inductive ParseCall where
  /-- `parseItem tokens` -/
  | item (toks : List Token)
  /-- the `while` loop of `parseSequence`; `items` is accumulated in
  reverse -/
  | seqLoop (toks : List Token) (items : List AST)
  /-- the outer `while` of `handleAlternation`; `alts` accumulated in
  reverse -/
  | altLoop (toks : List Token) (alts : List AST)
  /-- the inner item-collection loop of `handleAlternation` (stops at
  `)` or `|`); the collected items are returned as their `seq` -/
  | altItems (toks : List Token) (items : List AST)
deriving Repr

/-- The parser: one fuel unit per call; each call consumes at least one
token or dispatches to a sub-call, so `tokens.length + 1` fuel always
suffices. -/
def parseRun : Nat → ParseCall → Except String (AST × List Token)
  | 0, _ => throw "parser fuel exhausted"
  | fuel + 1, ParseCall.item toks =>
    (match toks with
    | Token.lparen :: rest => do
      let (group, rest1) ← parseRun fuel (ParseCall.seqLoop rest [])
      let rest2 := match rest1 with
        | Token.rparen :: r => r
        | r => r
      let ((mn, mx, rel), rest3) := extractQuantifier rest2
      return (AST.group group mn mx rel, rest3)
    | Token.varTok name :: rest =>
      let ((mn, mx, rel), rest1) := extractQuantifier rest
      return (AST.var name mn mx rel, rest1)
    | _ => throw "Internal error: unexpected token.")
  | fuel + 1, ParseCall.seqLoop toks items =>
    (match toks with
    | [] => return (AST.seq items.reverse, [])
    | Token.rparen :: _ => return (AST.seq items.reverse, toks)
    | Token.altTok :: rest =>
      parseRun fuel (ParseCall.altLoop rest [AST.seq items.reverse])
    | _ => do
      let (item, rest1) ← parseRun fuel (ParseCall.item toks)
      parseRun fuel (ParseCall.seqLoop rest1 (item :: items)))
  | fuel + 1, ParseCall.altLoop toks alts => do
    let (altSeq, rest) ← parseRun fuel (ParseCall.altItems toks [])
    let alts := altSeq :: alts
    match rest with
    | Token.altTok :: rest1 => parseRun fuel (ParseCall.altLoop rest1 alts)
    | _ => return (AST.alt alts.reverse, rest)
  | fuel + 1, ParseCall.altItems toks items =>
    (match toks with
    | [] => return (AST.seq items.reverse, [])
    | Token.rparen :: _ => return (AST.seq items.reverse, toks)
    | Token.altTok :: _ => return (AST.seq items.reverse, toks)
    | _ => do
      let (item, rest1) ← parseRun fuel (ParseCall.item toks)
      parseRun fuel (ParseCall.altItems rest1 (item :: items)))

/-- `parseItem`. -/
def parseItem (fuel : Nat) (toks : List Token) : Except String (AST × List Token) :=
  parseRun fuel (ParseCall.item toks)

/-- `parseSequence`. -/
def parseSequence (fuel : Nat) (toks : List Token) :
    Except String (AST × List Token) :=
  parseRun fuel (ParseCall.seqLoop toks [])

/-- `handleAlternation` (entered just past the first `|`; the items so
far form the first alternative). -/
def handleAlternation (fuel : Nat) (toks : List Token) (currentItems : List AST) :
    Except String (AST × List Token) :=
  parseRun fuel (ParseCall.altLoop toks [AST.seq currentItems.reverse])

/-! ## AST equality and optimizer (src/parser.js, `astEqual`,
`unwrapGroups`, `removeDuplicates`, `optimizeQuantifiers`) -/

/-- `astEqual` as a worklist of node pairs (one fuel-structural
function in place of the source's mutual node/children recursion):
deep structural equality on type, `min`/`max`/`reluctant`, name and
children.  For `seq`/`alt` the source compares the (absent) `min`/`max`
fields as `undefined === undefined`, i.e. vacuously equal; child lists
are equal when their lengths agree and they are pairwise equal. -/
def astEqualGo : Nat → List (AST × AST) → Bool
  | 0, _ => false
  | _ + 1, [] => true
  | fuel + 1, (a, b) :: rest =>
    match a, b with
    | AST.var n1 mn1 mx1 r1, AST.var n2 mn2 mx2 r2 =>
      (n1 = n2 ∧ mn1 = mn2 ∧ mx1 = mx2 ∧ r1 = r2) ∧ astEqualGo fuel rest
    | AST.group c1 mn1 mx1 r1, AST.group c2 mn2 mx2 r2 =>
      (mn1 = mn2 ∧ mx1 = mx2 ∧ r1 = r2) ∧ astEqualGo fuel ((c1, c2) :: rest)
    | AST.seq i1, AST.seq i2 =>
      i1.length = i2.length ∧ astEqualGo fuel (i1.zip i2 ++ rest)
    | AST.alt a1, AST.alt a2 =>
      a1.length = a2.length ∧ astEqualGo fuel (a1.zip a2 ++ rest)
    | _, _ => false

/-- `astEqual` with explicit fuel (ample fuel is threaded down from
`parsePattern`). -/
def astEqual (fuel : Nat) (a b : AST) : Bool :=
  astEqualGo fuel [(a, b)]

/-- The dedup filter of `removeDuplicates`: keep an alternative only if
no earlier kept one is `astEqual` to it. -/
def dedupAlts (fuel : Nat) : List AST → List AST → List AST
  | acc, [] => acc.reverse
  | acc, a :: rest =>
    if acc.any (fun u => astEqual fuel u a) then dedupAlts fuel acc rest
    else dedupAlts fuel (a :: acc) rest

/-- Call descriptors for the node/children mutual recursions of the
three optimizer passes (a node call returns a singleton list). -/
inductive OptCall where
  | node (a : AST)
  | list (l : List AST)
deriving Repr

/-- Head of an optimizer-pass result (a node call always produces a
singleton). -/
def optHead (l : List AST) : AST := l.headD (AST.seq [])

/-- `unwrapGroups`: collapse `{1,1}` groups, flatten nested `seq`s and
`alt`s, drop single-item wrappers. -/
def unwrapGroupsRun : Nat → OptCall → List AST
  | 0, OptCall.node a => [a]
  | 0, OptCall.list l => l
  | fuel + 1, OptCall.node node =>
    match node with
    | AST.seq items =>
      let items1 := unwrapGroupsRun fuel (OptCall.list items)
      let newItems := items1.foldr
        (fun item acc =>
          match item with
          | AST.group content 1 (some 1) _ =>
            (match content with
             | AST.seq inner => inner ++ acc
             | c => c :: acc)
          | AST.seq inner => inner ++ acc
          | it => it :: acc) []
      match newItems with
      | [single] => [single]
      | l => [AST.seq l]
    | AST.group content mn mx r =>
      let content := optHead (unwrapGroupsRun fuel (OptCall.node content))
      if mn = 1 ∧ mx = some 1 then [content]
      else [AST.group content mn mx r]
    | AST.alt alts =>
      let alts1 := unwrapGroupsRun fuel (OptCall.list alts)
      let newAlts := alts1.foldr
        (fun alt acc =>
          match alt with
          | AST.alt inner => inner ++ acc
          | a => a :: acc) []
      match newAlts with
      | [single] => [single]
      | l => [AST.alt l]
    | n => [n]
  | fuel + 1, OptCall.list l =>
    match l with
    | [] => []
    | a :: rest =>
      optHead (unwrapGroupsRun fuel (OptCall.node a)) ::
        unwrapGroupsRun fuel (OptCall.list rest)

def unwrapGroups (fuel : Nat) (node : AST) : AST :=
  optHead (unwrapGroupsRun fuel (OptCall.node node))

/-- `removeDuplicates`: inside every `alt`, drop alternatives
structurally equal to an earlier one; unwrap a singleton `alt`. -/
def removeDuplicatesRun : Nat → OptCall → List AST
  | 0, OptCall.node a => [a]
  | 0, OptCall.list l => l
  | fuel + 1, OptCall.node node =>
    match node with
    | AST.seq items => [AST.seq (removeDuplicatesRun fuel (OptCall.list items))]
    | AST.group content mn mx r =>
      [AST.group (optHead (removeDuplicatesRun fuel (OptCall.node content))) mn mx r]
    | AST.alt alts =>
      let alts1 := removeDuplicatesRun fuel (OptCall.list alts)
      let unique := dedupAlts fuel [] alts1
      match unique with
      | [single] => [single]
      | l => [AST.alt l]
    | n => [n]
  | fuel + 1, OptCall.list l =>
    match l with
    | [] => []
    | a :: rest =>
      optHead (removeDuplicatesRun fuel (OptCall.node a)) ::
        removeDuplicatesRun fuel (OptCall.list rest)

def removeDuplicates (fuel : Nat) (node : AST) : AST :=
  optHead (removeDuplicatesRun fuel (OptCall.node node))

/-- Count the run of consecutive `VAR name {1,1}` nodes at the head
(the inner `while` of the consecutive-var merge). -/
def countSameVar (name : String) : List AST → Nat
  | AST.var n 1 (some 1) _ :: rest =>
    if n = name then 1 + countSameVar name rest else 0
  | _ => 0

/-- The consecutive-identical-var merge loop of `optimizeQuantifiers`
over a `seq`'s (already recursively optimized) items. -/
def mergeConsecutiveVars : Nat → List AST → List AST
  | 0, items => items
  | _ + 1, [] => []
  | fuel + 1, item :: rest =>
    match item with
    | AST.var name 1 (some 1) rel =>
      let count := 1 + countSameVar name rest
      if count > 1 then
        AST.var name count (some count) rel ::
          mergeConsecutiveVars fuel (rest.drop (count - 1))
      else
        item :: mergeConsecutiveVars fuel rest
    | _ => item :: mergeConsecutiveVars fuel rest

/-- `Option Nat` multiplication with `none = Infinity`
(JS: `anything * Infinity = Infinity`; bounds here are ≥ 1 wherever the
fusion fires). -/
def optMul : Option Nat → Option Nat → Option Nat
  | some a, some b => some (a * b)
  | _, _ => none

/-- `optimizeQuantifiers`: merge consecutive identical `{1,1}` vars in a
`seq`, and fuse a group with its single quantified child when at least
one of the two quantifiers is fixed (`min = max`). -/
def optimizeQuantifiersRun : Nat → OptCall → List AST
  | 0, OptCall.node a => [a]
  | 0, OptCall.list l => l
  | fuel + 1, OptCall.node node =>
    match node with
    | AST.seq items =>
      let items1 := optimizeQuantifiersRun fuel (OptCall.list items)
      [AST.seq (mergeConsecutiveVars (items1.length + 1) items1)]
    | AST.group content mn mx r =>
      let content := optHead (optimizeQuantifiersRun fuel (OptCall.node content))
      let innerNode : Option AST :=
        match content with
        | AST.var .. => some content
        | AST.group .. => some content
        | AST.seq [single] => some single
        | _ => none
      (match innerNode with
      | some (AST.var name imn imx irel) =>
        if (some mn = mx) ∨ (some imn = imx) then
          [AST.var name (imn * mn) (optMul imx mx) irel]
        else [AST.group content mn mx r]
      | some (AST.group icontent imn imx irel) =>
        if (some mn = mx) ∨ (some imn = imx) then
          [AST.group icontent (imn * mn) (optMul imx mx) irel]
        else [AST.group content mn mx r]
      | _ => [AST.group content mn mx r])
    | AST.alt alts => [AST.alt (optimizeQuantifiersRun fuel (OptCall.list alts))]
    | n => [n]
  | fuel + 1, OptCall.list l =>
    match l with
    | [] => []
    | a :: rest =>
      optHead (optimizeQuantifiersRun fuel (OptCall.node a)) ::
        optimizeQuantifiersRun fuel (OptCall.list rest)

def optimizeQuantifiers (fuel : Nat) (node : AST) : AST :=
  optHead (optimizeQuantifiersRun fuel (OptCall.node node))

/-- `optimizeAST`: the three optimizations in order. -/
def optimizeAST (fuel : Nat) (node : AST) : AST :=
  optimizeQuantifiers fuel (removeDuplicates fuel (unwrapGroups fuel node))

/-! ## Flattening (src/parser.js, `collectVariables` / `flattenAST` /
`compileAST`) -/

/-- `collectVariables`: variable names in order of first appearance
(pre-order worklist form of the source's node/children recursion). -/
def collectVariablesGo : Nat → List AST → List String → List String
  | 0, _, acc => acc
  | _ + 1, [], acc => acc
  | fuel + 1, node :: rest, acc =>
    match node with
    | AST.var name _ _ _ =>
      collectVariablesGo fuel rest
        (if acc.contains name then acc else acc ++ [name])
    | AST.seq items => collectVariablesGo fuel (items ++ rest) acc
    | AST.group content _ _ _ => collectVariablesGo fuel (content :: rest) acc
    | AST.alt alts => collectVariablesGo fuel (alts ++ rest) acc

def collectVariables (fuel : Nat) (ast : AST) (acc : List String) : List String :=
  collectVariablesGo fuel [ast] acc

/-- In-place update of the element at index `i` (the JS pattern-array
mutations); out-of-range indices leave the list unchanged. -/
def modifyAt (l : List PatternElement) (i : Nat)
    (f : PatternElement → PatternElement) : List PatternElement :=
  match l, i with
  | [], _ => []
  | x :: xs, 0 => f x :: xs
  | x :: xs, n + 1 => x :: modifyAt xs n f

/-- The arm-`jump` chaining loop: each non-last alternative's first
element points at the next alternative's first element. -/
def setAltJumps : List Nat → List PatternElement → List PatternElement
  | s1 :: s2 :: rest, els =>
    setAltJumps (s2 :: rest) (modifyAt els s1 (fun e => { e with jump := (s2 : Int) }))
  | _, els => els

/-- Call descriptors for the `flattenAST` mutual recursion: a node, the
item walk of a `seq`, or the per-alternative walk of an `alt` (the only
call that uses the start/end index lists of the result). -/
inductive FlatCall where
  | node (a : AST) (depth : Nat)
  | items (l : List AST) (depth : Nat)
  | alts (l : List AST) (depth : Nat)
deriving Repr

/-- `flattenAST`: append the elements of the node (at its nesting
depth) to `els`, with the `#ALT` / `#END` markers and the alternation
link surgery of the source.  An `alts` call additionally returns each
alternative's first-element index and the end index of each alternative
that emitted at least one element (node and item calls return `[]`
there). -/
def flattenRun (varList : List String) : Nat → FlatCall →
    List PatternElement → List PatternElement × List Nat × List Nat
  | 0, _, els => (els, [], [])
  | fuel + 1, FlatCall.node ast depth, els =>
    (match ast with
    | AST.seq items => ((flattenRun varList fuel (FlatCall.items items depth) els).1, [], [])
    | AST.var name mn mx rel =>
      (els ++ [{ varId := (varList.indexOf name : Int), depth := depth,
                 min := mn, max := mx, reluctant := rel }], [], [])
    | AST.group content mn mx rel =>
      let groupStartIdx := els.length
      let els1 := (flattenRun varList fuel (FlatCall.node content (depth + 1)) els).1
      if mn = 1 ∧ mx = some 1 then (els1, [], [])
      else
        (els1 ++ [{ varId := -2, depth := depth, min := mn, max := mx,
                    jump := (groupStartIdx : Int), reluctant := rel }], [], [])
    | AST.alt alts =>
      let altIdx := els.length
      let els1 := els ++ [{ varId := (-1 : Int), depth := depth }]
      let r := flattenRun varList fuel (FlatCall.alts alts (depth + 1)) els1
      let els2 := r.1
      let branchStarts := r.2.1
      let endPositions := r.2.2
      -- ALT_START.next = first alternative start
      let els3 :=
        match branchStarts with
        | first :: _ => modifyAt els2 altIdx (fun e => { e with next := (first : Int) })
        | [] => els2
      -- jump-chain the alternatives' first elements
      let els4 := setAltJumps branchStarts els3
      -- arm-final elements with next still -1 point past the alternation
      let afterAltIdx := els2.length
      (endPositions.foldl
        (fun acc endPos =>
          if (acc.getD endPos default).next = -1 then
            modifyAt acc endPos (fun e => { e with next := (afterAltIdx : Int) })
          else acc) els4, [], []))
  | fuel + 1, FlatCall.items l depth, els =>
    (match l with
    | [] => (els, [], [])
    | item :: rest =>
      ((flattenRun varList fuel (FlatCall.items rest depth)
        (flattenRun varList fuel (FlatCall.node item depth) els).1).1, [], []))
  | fuel + 1, FlatCall.alts l depth, els =>
    match l with
    | [] => (els, [], [])
    | a :: rest =>
      let altBranchStart := els.length
      let els1 := (flattenRun varList fuel (FlatCall.node a depth) els).1
      let r := flattenRun varList fuel (FlatCall.alts rest depth) els1
      let myEnds := if els1.length > altBranchStart then [els1.length - 1] else []
      (r.1, altBranchStart :: r.2.1, myEnds ++ r.2.2)

def flattenAST (varList : List String) (fuel : Nat) (ast : AST) (depth : Nat)
    (els : List PatternElement) : List PatternElement :=
  (flattenRun varList fuel (FlatCall.node ast depth) els).1

/-- Index-aware map used for the `next`-placeholder rewriting loop. -/
def mapIdxGo (f : Nat → PatternElement → PatternElement) :
    Nat → List PatternElement → List PatternElement
  | _, [] => []
  | i, x :: xs => f i x :: mapIdxGo f (i + 1) xs

/-- `compileAST`: collect variables, flatten, rewrite `next = -1`
placeholders (to the following index, or to the `#FIN` index for the
last element), append the single `#FIN`, and compute
`maxDepth`/`reluctant`.  `fuel` bounds the AST recursions (ample fuel
is supplied by `parsePattern`). -/
def compileAST (fuel : Nat) (ast : AST) : Pattern :=
  let varList := collectVariables fuel ast []
  let flat := flattenAST varList fuel ast 0 []
  let finIdx := flat.length
  let flat2 := mapIdxGo
    (fun i e =>
      if e.next = -1 then
        { e with next := if i < flat.length - 1 then (i + 1 : Int) else (finIdx : Int) }
      else e) 0 flat
  let elements := flat2 ++ [{ varId := (-3 : Int) }]
  { elements := elements
    vars := varList
    maxDepth := elements.foldl (fun acc e => max acc e.depth) 0
    reluctant := elements.any (·.reluctant) }

/-- `parsePattern`: tokenize, parse, optionally optimize, compile.
Leftover tokens after the top-level sequence are ignored exactly as in
the source (the balance check in `tokenize` prevents stray `)`).  The
AST recursions receive fuel that amply covers any AST parsed from the
token stream (the parser produces at most a handful of nodes per
token). -/
def parsePattern (patternStr : String) (optimize : Bool) :
    Except String Pattern := do
  let tokens ← tokenize patternStr
  let (ast, _) ← parseSequence (tokens.length + 1) tokens
  let astFuel := (tokens.length + 4) * 32
  let ast := if optimize then optimizeAST astFuel ast else ast
  return compileAST astFuel ast

/-! ## Runtime data model (src/nfa.js: `Summary`, `MatchState`,
`MatchContext`) -/

/-- A `Summary` is its `paths` list (a path is the sequence of matched
variable ids); `aggregates` is permanently the empty map in the source
and is omitted (see the header note). -/
structure Summary where
  paths : List (List Int)
deriving DecidableEq, Repr, Inhabited

namespace Summary

/-- `withMatch`: push `varId` onto every path. -/
def withMatch (s : Summary) (varId : Int) : Summary :=
  ⟨s.paths.map (· ++ [varId])⟩

/-- `mergePaths`: append `other`'s paths that are not already present
(the source keys by `join(',')`, which on integer lists coincides with
list equality). -/
def mergePaths (s other : Summary) : Summary :=
  ⟨other.paths.foldl (fun acc p => if acc.contains p then acc else acc ++ [p]) s.paths⟩

end Summary

/-- A live NFA state: `elementIndex = -1` is the completion sentinel. -/
structure MatchState where
  elementIndex : Int
  counts : List Nat
  summaries : List Summary
deriving DecidableEq, Repr, Inhabited

/-- The fresh state of the `MatchState` constructor when no summaries
are supplied: one summary holding one empty path. -/
def freshSummaries : List Summary := [⟨[[]]⟩]

namespace MatchState

/-- `withMatch`: push the matched variable onto every summary. -/
def withMatch (s : MatchState) (varId : Int) : MatchState :=
  { s with summaries := s.summaries.map (·.withMatch varId) }

/-- One step of `mergeSummaries`: the source searches for a summary
with equal `aggregates`; all aggregates are the empty map, so the first
summary always matches (and an empty receiver appends a copy). -/
def mergeOneSummary (sums : List Summary) (osum : Summary) : List Summary :=
  match sums with
  | [] => [osum]
  | first :: rest => first.mergePaths osum :: rest

/-- `mergeSummaries` (receiver-mutating in the source). -/
def mergeSummaries (s other : MatchState) : MatchState :=
  { s with summaries := other.summaries.foldl mergeOneSummary s.summaries }

/-- `getMatchedPaths`: all paths of all summaries, in insertion order
(`nfa.js` keeps no sequence numbers — insertion order is the lexical
order). -/
def getMatchedPaths (s : MatchState) : List (List Int) :=
  (s.summaries.map (·.paths)).flatten

end MatchState

/-- The source's `hash()` string `elementIndex + ":" + counts.join(",")`
is injective in `(elementIndex, counts)` (decimal digits contain neither
separator), so the key is modelled as the pair itself. -/
def stateKey (s : MatchState) : Int × List Nat :=
  (s.elementIndex, s.counts)

/-- A match attempt: all states that started at the same row. -/
structure MatchContext where
  id : Nat
  matchStart : Int
  matchEnd : Int := -1
  isCompleted : Bool := false
  states : List MatchState := []
  completedPaths : List (List Int) := []
  greedyFallback : Option (List Int) := none
deriving DecidableEq, Repr, Inhabited

namespace MatchContext

/-- `addCompletedPath`: dedup on the raw path (the `_pathSet` key), then
store it with the context id prefixed. -/
def addCompletedPath (ctx : MatchContext) (path : List Int) : MatchContext :=
  if path = [] then ctx
  else if ctx.completedPaths.any (fun q => q.drop 1 = path) then ctx
  else { ctx with completedPaths := ctx.completedPaths ++ [(ctx.id : Int) :: path] }

end MatchContext

/-! ## Executor configuration and state (src/nfa.js, `NFAExecutor`) -/

inductive SkipMode where
  | pastLast | toNext
deriving DecidableEq, Repr, Inhabited

inductive OutputMode where
  | oneRow | allRows
deriving DecidableEq, Repr, Inhabited

/-- One emitted match (`emitContext`'s result object). -/
structure EmitResult where
  contextId : Nat
  matchStart : Int
  matchEnd : Int
  paths : List (List String)
deriving DecidableEq, Repr, Inhabited

/-- The executor's mutable fields.  The process-wide `_ctxId` counter is
reset to 0 by the constructor and only used by this instance, so it is
carried here as `nextCtxId`. -/
structure ExecState where
  pattern : Pattern
  contexts : List MatchContext := []
  currentRow : Int := -1
  skipMode : SkipMode := SkipMode.pastLast
  outputMode : OutputMode := OutputMode.oneRow
  completedContexts : List MatchContext := []
  emittedResults : List EmitResult := []
  lastEmittedEnd : Int := -1
  nextCtxId : Nat := 0
deriving DecidableEq, Repr, Inhabited

/-- `new NFAExecutor(pattern, options)`. -/
def initExec (pat : Pattern) (skipMode : SkipMode) (outputMode : OutputMode) :
    ExecState :=
  { pattern := pat, skipMode := skipMode, outputMode := outputMode }

/-- `toVarIds`: map names to ids through `pattern.variables`, ignoring
unknown names.  The JS result is an object keyed by the ids; its key
set, enumerated in ascending numeric order, is exactly this list. -/
def toVarIds (pat : Pattern) (varNames : List String) : List Int :=
  ((List.range pat.vars.length).filter
    (fun i => varNames.contains (pat.vars.getD i ""))).map Int.ofNat

def hasVarId (tv : List Int) (varId : Int) : Bool :=
  tv.contains varId

/-- `pattern.elements[i]` with an `Int` index (`undefined` = `none`). -/
def elemAt (pat : Pattern) (i : Int) : Option PatternElement :=
  if i < 0 then none else pat.elements[i.toNat]?

/-- Generic positional update used for the JS in-place array writes. -/
def listModify (l : List MatchState) (i : Nat)
    (f : MatchState → MatchState) : List MatchState :=
  match l, i with
  | [], _ => []
  | x :: xs, 0 => f x :: xs
  | x :: xs, n + 1 => x :: listModify xs n f

/-- Index-aware map over count vectors. -/
def mapIdxGen (f : Nat → Nat → Nat) : Nat → List Nat → List Nat
  | _, [] => []
  | i, x :: xs => f i x :: mapIdxGen f (i + 1) xs

/-- `resetInnerCounts`: zero every count strictly deeper than `depth`. -/
def resetInnerCounts (counts : List Nat) (depth : Nat) : List Nat :=
  mapIdxGen (fun i c => if depth < i then 0 else c) 0 counts

/-! ## Element-level transitions (src/nfa.js, `transition`,
`transitionVar`, `transitionAlt`, `transitionGroupEnd`,
`findGroupEnd`).

The JS recursion (chained skips across elements) always advances to a
strictly larger element index, so its depth is bounded by the pattern
length; here every function consumes one unit of fuel per call and the
executor supplies quadratic fuel. -/

/-- `findGroupEnd`: follow `next` from `altElem.next` to the enclosing
`#END`. -/
def findGroupEndGo (pat : Pattern) : Nat → Int → Option PatternElement
  | 0, _ => none
  | fuel + 1, idx =>
    if 0 ≤ idx ∧ idx.toNat < pat.elements.length then
      let e := pat.elements.getD idx.toNat default
      if e.isGroupEnd then some e else findGroupEndGo pat fuel e.next
    else none

def findGroupEnd (pat : Pattern) (altElem : PatternElement) : Option PatternElement :=
  findGroupEndGo pat (pat.elements.length + 2) altElem.next

/-- `transitionGroupEnd`: must-repeat / must-exit / reluctant /
greedy double-push (no recursion, no input). -/
def transitionGroupEnd (state : MatchState) (elem : PatternElement) :
    List MatchState :=
  let count := state.counts.getD elem.depth 0 + 1
  let repeatState : MatchState :=
    { state with counts := resetInnerCounts (state.counts.set elem.depth count) elem.depth,
                 elementIndex := elem.jump }
  let exitState : MatchState :=
    { state with counts := state.counts.set elem.depth 0, elementIndex := elem.next }
  if count < elem.min then [repeatState]
  else if PatternElement.geMax count elem.max then [exitState]
  else if elem.reluctant then [exitState, repeatState]
  else [repeatState, exitState]

/-- Call descriptors for the mutually recursive transition functions of
the source (`transition`, `transitionVar`, `transitionAlt` and the
arm-walk `while` of `transitionAlt`), made one fuel-structural function
so the kernel can evaluate concrete transitions.  The source's
`anyMatched` flag is exactly "some arm produced a successor", i.e. the
concatenated arm results are nonempty, so the arm walk returns just the
result list. -/
inductive TransCall where
  | trans (state : MatchState) (tv : List Int)
  | var (state : MatchState) (elem : PatternElement) (tv : List Int)
  | alt (state : MatchState) (elem : PatternElement) (tv : List Int)
  | arms (altIdx : Int) (state : MatchState) (tv : List Int)
deriving Repr

def transRun (pat : Pattern) : Nat → TransCall → List MatchState
  | 0, _ => []
  -- `transition`: dispatch on the element kind at the state's
  -- position; a missing element (or `#FIN`) yields the completed state
  | fuel + 1, TransCall.trans state tv =>
    if state.elementIndex = -1 then []
    else
      match elemAt pat state.elementIndex with
      | none => [{ state with elementIndex := -1 }]
      | some elem =>
        if elem.isVar then transRun pat fuel (TransCall.var state elem tv)
        else if elem.isAltStart then transRun pat fuel (TransCall.alt state elem tv)
        else if elem.isGroupEnd then transitionGroupEnd state elem
        else [{ state with elementIndex := -1 }]
  -- `transitionVar`: consume a matching variable (stay / advance with
  -- greedy or reluctant preference) or skip a satisfied position,
  -- recursing for chained skips; a mismatch below `min` kills the state
  | fuel + 1, TransCall.var state elem tv =>
    let count := state.counts.getD elem.depth 0
    if hasVarId tv elem.varId then
      let newCount := count + 1
      let base := { state.withMatch elem.varId with
                    counts := state.counts.set elem.depth newCount }
      let advance := { base with counts := base.counts.set elem.depth 0,
                                 elementIndex := elem.next }
      if PatternElement.geMax newCount elem.max then [advance]
      else if elem.min ≤ newCount ∧ elem.reluctant then [advance, base]
      else if elem.min ≤ newCount ∧ ¬elem.reluctant then [base, advance]
      else [base]
    else
      if elem.min ≤ count then
        transRun pat fuel (TransCall.trans
          { state with counts := state.counts.set elem.depth 0,
                       elementIndex := elem.next } tv)
      else []
  -- `transitionAlt`: try every alternative (the source clones for
  -- every arm — its `isFirst ? clone : clone`); if none yields and the
  -- enclosing group's `min` is satisfied, exit the group and recurse,
  -- keeping the bare exit state when the recursion yields nothing
  | fuel + 1, TransCall.alt state elem tv =>
    let armResults := transRun pat fuel (TransCall.arms elem.next state tv)
    if armResults ≠ [] then armResults
    else
      match findGroupEnd pat elem with
      | none => []
      | some endElem =>
        let count := state.counts.getD endElem.depth 0
        if endElem.min ≤ count then
          let exitState := { state with counts := state.counts.set endElem.depth 0,
                                        elementIndex := endElem.next }
          let subResults := transRun pat fuel (TransCall.trans exitState tv)
          if subResults = [] then [exitState] else subResults
        else []
  -- the arm-walk `while` of `transitionAlt`: follow the `jump` chain of
  -- first-of-arm elements, transitioning from each arm start
  | fuel + 1, TransCall.arms altIdx state tv =>
    if 0 ≤ altIdx ∧ altIdx.toNat < pat.elements.length then
      let altElem := pat.elements.getD altIdx.toNat default
      let subResults := transRun pat fuel (TransCall.trans { state with elementIndex := altIdx } tv)
      subResults ++ transRun pat fuel (TransCall.arms altElem.jump state tv)
    else []

/-- `transition`. -/
def transition (pat : Pattern) (fuel : Nat) (state : MatchState)
    (tv : List Int) : List MatchState :=
  transRun pat fuel (TransCall.trans state tv)

/-- `transitionVar`. -/
def transitionVar (pat : Pattern) (fuel : Nat) (state : MatchState)
    (elem : PatternElement) (tv : List Int) : List MatchState :=
  transRun pat fuel (TransCall.var state elem tv)

/-- `transitionAlt`. -/
def transitionAlt (pat : Pattern) (fuel : Nat) (state : MatchState)
    (elem : PatternElement) (tv : List Int) : List MatchState :=
  transRun pat fuel (TransCall.alt state elem tv)

/-- The arm walk of `transitionAlt` (results of all arms, in order). -/
def altArms (pat : Pattern) (fuel : Nat) (altIdx : Int) (state : MatchState)
    (tv : List Int) : List MatchState :=
  transRun pat fuel (TransCall.arms altIdx state tv)

/-! ## State merging and expansion (src/nfa.js, `mergeStates`,
`expandToWaitPositions`) -/

/-- Insert a state into a hash-deduplicated insertion-ordered list:
merge the summaries into the first key-equal entry, else append.  This
is the shared array-plus-index idiom of `consumeInput`, `mergeStates`
and the completed-state separation. -/
def insertMerge (l : List MatchState) (s : MatchState) : List MatchState :=
  match l with
  | [] => [s]
  | t :: rest =>
    if stateKey t = stateKey s then t.mergeSummaries s :: rest
    else t :: insertMerge rest s

/-- `mergeStates`: deduplicate by state hash, first insertion kept. -/
def mergeStates (states : List MatchState) : List MatchState :=
  states.foldl insertMerge []

/-- A wait-frontier entry of the expansion: either an alias of a seen
entry (the source pushes the very state object, which later merges
mutate) or a completed-state snapshot (`#FIN` pushes a clone, which
later merges do not reach). -/
inductive WaitRef where
  | seenIdx (i : Nat)
  | snapshot (s : MatchState)
deriving DecidableEq, Repr, Inhabited

/-- The BFS loop of `expandToWaitPositions`.  `seen` is the
insertion-ordered seen list, `refs` the result in order.  Fuel bounds
the queue iterations (the JS loop diverges on patterns like `(A*)*`;
every terminating execution is reproduced with ample fuel). -/
def expandGo (pat : Pattern) : Nat → List MatchState → List MatchState →
    List WaitRef → List MatchState × List WaitRef
  | 0, _, seen, refs => (seen, refs)
  | _ + 1, [], seen, refs => (seen, refs)
  | fuel + 1, state :: queue, seen, refs =>
    match seen.findIdx? (fun s => stateKey s = stateKey state) with
    | some i => expandGo pat fuel queue (listModify seen i (·.mergeSummaries state)) refs
    | none =>
      let idx := seen.length
      let seen := seen ++ [state]
      if state.elementIndex = -1 then
        expandGo pat fuel queue seen (refs ++ [WaitRef.seenIdx idx])
      else
        match elemAt pat state.elementIndex with
        | none =>
          expandGo pat fuel queue seen
            (refs ++ [WaitRef.snapshot { state with elementIndex := -1 }])
        | some elem =>
          if elem.isFinish then
            expandGo pat fuel queue seen
              (refs ++ [WaitRef.snapshot { state with elementIndex := -1 }])
          else if elem.isVar then
            let refs := refs ++ [WaitRef.seenIdx idx]
            let count := state.counts.getD elem.depth 0
            if elem.min ≤ count then
              let skip := { state with counts := state.counts.set elem.depth 0,
                                       elementIndex := elem.next }
              expandGo pat fuel (queue ++ [skip]) seen refs
            else expandGo pat fuel queue seen refs
          else if elem.isAltStart then
            let refs := refs ++ [WaitRef.seenIdx idx]
            match findGroupEnd pat elem with
            | some endElem =>
              let count := state.counts.getD endElem.depth 0
              if endElem.min ≤ count then
                let skip := { state with counts := state.counts.set endElem.depth 0,
                                         elementIndex := endElem.next }
                expandGo pat fuel (queue ++ [skip]) seen refs
              else expandGo pat fuel queue seen refs
            | none => expandGo pat fuel queue seen refs
          else if elem.isGroupEnd then
            -- the source inlines exactly the `transitionGroupEnd`
            -- branching here, enqueueing the successors in order
            expandGo pat fuel (queue ++ transitionGroupEnd state elem) seen refs
          else
            expandGo pat fuel queue seen refs

/-- Fuel for the expansion queue. -/
def expandFuel (pat : Pattern) : Nat :=
  (pat.elements.length + 2) * (pat.elements.length + 2) * 8

/-- Fuel for the transition recursion. -/
def transFuel (pat : Pattern) : Nat :=
  (pat.elements.length + 2) * (pat.elements.length + 2)

/-- `expandToWaitPositions`: run the BFS, then materialize the result
references against the final seen list (the source's aliasing: later
summary merges are visible through wait-position entries but not
through the `#FIN` clones). -/
def expandToWaitPositions (pat : Pattern) (states : List MatchState) :
    List MatchState :=
  let go := expandGo pat (expandFuel pat) states [] []
  go.2.map fun r =>
    match r with
    | WaitRef.seenIdx i => go.1.getD i default
    | WaitRef.snapshot s => s

/-! ## Consumption, filtering, recursive-arm helpers (src/nfa.js,
`consumeInput`, `filterNonViableStates`, `canAltMatch`,
`findConsumableAlternatives`) -/

/-- The result record of `consumeInput`.  Dead states are recorded as
the state that died (the source wraps them with context-id metadata for
the snapshot stream). -/
structure ConsumeResult where
  activeStates : List MatchState
  completedStates : List MatchState
  deadStates : List MatchState
deriving DecidableEq, Repr, Inhabited

/-- `consumeInput`: transition every state, partitioning the successors
into completed (`elementIndex = -1`) and active, deduplicating each
partition by state hash with summary merging; a state with no
successors is recorded dead. -/
def consumeInput (pat : Pattern) (states : List MatchState) (tv : List Int) :
    ConsumeResult :=
  states.foldl
    (fun acc state =>
      let results := transition pat (transFuel pat) state tv
      let acc :=
        if results = [] then { acc with deadStates := acc.deadStates ++ [state] }
        else acc
      results.foldl
        (fun acc ns =>
          if ns.elementIndex = -1 then
            { acc with completedStates := insertMerge acc.completedStates ns }
          else
            { acc with activeStates := insertMerge acc.activeStates ns })
        acc)
    ⟨[], [], []⟩

/-- `canAltMatch`: the recursive arm search — walk the `jump` chain of
arm-first elements; a matching `Var` succeeds, a nested `#ALT` is
searched recursively. -/
def canAltMatchGo (pat : Pattern) : Nat → Int → List Int → Bool
  | 0, _, _ => false
  | fuel + 1, altIdx, tv =>
    if 0 ≤ altIdx ∧ altIdx.toNat < pat.elements.length then
      let elem := pat.elements.getD altIdx.toNat default
      if elem.isVar ∧ hasVarId tv elem.varId then true
      else if elem.isAltStart ∧ canAltMatchGo pat fuel elem.next tv then true
      else canAltMatchGo pat fuel elem.jump tv
    else false

def canAltMatch (pat : Pattern) (altElem : PatternElement) (tv : List Int) : Bool :=
  canAltMatchGo pat (transFuel pat) altElem.next tv

/-- `filterNonViableStates`: on a row with no pattern variable true,
keep a `Var` state only if it can match (vacuously false here) or skip,
an `#ALT` state only if an arm can match or the group can exit. -/
def filterNonViableStates (pat : Pattern) (states : List MatchState)
    (tv : List Int) : List MatchState :=
  states.filter fun state =>
    if state.elementIndex = -1 then true
    else
      match elemAt pat state.elementIndex with
      | none => true
      | some elem =>
        if elem.isAltStart then
          if canAltMatch pat elem tv then true
          else
            match findGroupEnd pat elem with
            | some endElem => endElem.min ≤ state.counts.getD endElem.depth 0
            | none => false
        else if elem.isVar then
          if hasVarId tv elem.varId then true
          else elem.min ≤ state.counts.getD elem.depth 0
        else true

/-- `findConsumableAlternatives`: clone the `#ALT` state onto every arm
whose first element is a matching `Var`, recursing into nested `#ALT`
arm heads. -/
def findConsumableGo (pat : Pattern) : Nat → Int → MatchState → List Int →
    List MatchState
  | 0, _, _, _ => []
  | fuel + 1, altIdx, state, tv =>
    if 0 ≤ altIdx ∧ altIdx.toNat < pat.elements.length then
      let elem := pat.elements.getD altIdx.toNat default
      let here :=
        if elem.isVar ∧ hasVarId tv elem.varId then
          [{ state with elementIndex := altIdx }]
        else if elem.isAltStart then
          findConsumableGo pat fuel elem.next state tv
        else []
      here ++ findConsumableGo pat fuel elem.jump state tv
    else []

def findConsumableAlternatives (pat : Pattern) (state : MatchState)
    (altElem : PatternElement) (tv : List Int) : List MatchState :=
  findConsumableGo pat (transFuel pat) altElem.next state tv

/-! ## The shared per-context step (the identical consume / expand /
filter / separate / merge phase of `tryStartNewContext` and
`processContext`) -/

structure StepOut where
  /-- the merged next wait states (the new `ctx.states`) -/
  activeStates : List MatchState
  /-- the completed states of the step, hash-deduplicated -/
  completedStates : List MatchState
  deadStates : List MatchState
deriving DecidableEq, Repr, Inhabited

/-- Consume the row, expand to the next wait frontier, filter when the
row has no pattern variable, fold frontier completions into the
consumption completions by state hash, and merge duplicate actives. -/
def runStep (pat : Pattern) (states : List MatchState) (tv : List Int) : StepOut :=
  let cr := consumeInput pat states tv
  let nextWait := expandToWaitPositions pat cr.activeStates
  let hasPatternMatch := tv.length > 0
  let nextWait :=
    if hasPatternMatch then nextWait else filterNonViableStates pat nextWait tv
  let sep := nextWait.foldl
    (fun acc state =>
      if state.elementIndex = -1 then (insertMerge acc.1 state, acc.2)
      else (acc.1, acc.2 ++ [state]))
    (cr.completedStates, ([] : List MatchState))
  { activeStates := mergeStates sep.2
    completedStates := sep.1
    deadStates := cr.deadStates }

/-- Recompute `matchEnd` from the longest completed path (length without
the context-id entry). -/
def updateMatchEnd (ctx : MatchContext) : MatchContext :=
  if ctx.completedPaths = [] then ctx
  else
    let maxLen : Nat := ctx.completedPaths.foldl (fun m p => max m (p.length - 1)) 0
    { ctx with matchEnd := ctx.matchStart + (maxLen : Int) - 1 }

/-- Fold a step's completed paths into the context (the
`addCompletedPath` extraction loops). -/
def addCompletedStates (ctx : MatchContext) (completedStates : List MatchState) :
    MatchContext :=
  completedStates.foldl
    (fun c st => st.getMatchedPaths.foldl MatchContext.addCompletedPath c) ctx

/-! ## Context lifecycle (src/nfa.js, `tryStartNewContext`,
`processContext`, `absorbContexts`) -/

/-- `new MatchState(0, initCounts)` of `tryStartNewContext`. -/
def initMatchState (pat : Pattern) : MatchState :=
  ⟨0, List.replicate (pat.maxDepth + 1) 0, freshSummaries⟩

/-- The context construction of `tryStartNewContext`: the fresh
context carries the step's merged active states, collects the step's
completed paths, and (when any path completed) sets `matchEnd` and
possibly completes immediately. -/
def startCtxBuild (row : Int) (nextId : Nat) (out : StepOut) : MatchContext :=
  let ctx : MatchContext := { id := nextId, matchStart := row,
                              states := out.activeStates }
  let ctx := addCompletedStates ctx out.completedStates
  if ctx.completedPaths = [] then ctx
  else
    let ctx := updateMatchEnd ctx
    if ctx.states = [] then { ctx with isCompleted := true } else ctx

/-- `tryStartNewContext`: expand the initial state to wait positions,
keep those that can consume this row, and if any, run one step and
create the context (the `_ctxId` counter is consumed as soon as the
context object is constructed, kept or not). -/
def startConsumables (pat : Pattern) (tv : List Int) : List MatchState :=
  (expandToWaitPositions pat [initMatchState pat]).foldl
    (fun acc state =>
      if state.elementIndex = -1 then acc
      else
        match elemAt pat state.elementIndex with
        | none => acc
        | some elem =>
          if elem.isVar ∧ hasVarId tv elem.varId then acc ++ [state]
          else if elem.isAltStart then
            acc ++ findConsumableAlternatives pat state elem tv
          else acc)
    []

def tryStartNewContext (pat : Pattern) (row : Int) (tv : List Int)
    (contexts : List MatchContext) (nextId : Nat) : List MatchContext × Nat :=
  if pat.elements.length = 0 then (contexts, nextId)
  else if startConsumables pat tv = [] then (contexts, nextId)
  else if (startCtxBuild row nextId (runStep pat (startConsumables pat tv) tv)).states ≠ [] ∨
      (startCtxBuild row nextId (runStep pat (startConsumables pat tv) tv)).isCompleted then
    (contexts ++ [startCtxBuild row nextId (runStep pat (startConsumables pat tv) tv)], nextId + 1)
  else (contexts, nextId + 1)

/-- The inner `while` of the `canProgressFurther` check in
`processContext`: walk the `jump` chain of arm-first elements looking
for a `Var` true in this row.  Unlike `canAltMatch`, this source loop
does not recurse into nested `#ALT` arm heads. -/
def canProgressArm (pat : Pattern) : Nat → Int → List Int → Bool
  | 0, _, _ => false
  | fuel + 1, altIdx, tv =>
    if 0 ≤ altIdx ∧ altIdx.toNat < pat.elements.length then
      let altElem := pat.elements.getD altIdx.toNat default
      if altElem.isVar ∧ hasVarId tv altElem.varId then true
      else canProgressArm pat fuel altElem.jump tv
    else false

/-- The `canProgressFurther` computation of `processContext`. -/
def canProgressFurther (pat : Pattern) (tv : List Int)
    (states : List MatchState) : Bool :=
  states.any fun s =>
    match elemAt pat s.elementIndex with
    | none => false
    | some elem =>
      if elem.isVar then hasVarId tv elem.varId
      else if elem.isAltStart then canProgressArm pat (transFuel pat) elem.next tv
      else false

/-- The guard of the greedy-deferral branch of `processContext`. -/
def greedyDeferGuard (pat : Pattern) (tv : List Int) (out : StepOut) : Bool :=
  ¬pat.reluctant ∧ out.completedStates ≠ [] ∧ out.activeStates ≠ [] ∧
    canProgressFurther pat tv out.activeStates ∧ tv.length > 0

/-- The best-completion selection: the first path of maximal length
(insertion order breaks ties). -/
def bestCompletedPath (first : List Int) (rest : List (List Int)) : List Int :=
  rest.foldl (fun best p => if p.length > best.length then p else best) first

/-- The greedy-deferral branch body of `processContext`: keep (or
lengthen) the greedy fallback from the best completion, and report all
completions of the step as `greedy_defer` discards; `completed_paths`
is not touched. -/
def greedyDeferUpdate (ctx : MatchContext) (allCompletedPaths : List (List Int)) :
    MatchContext × List (List Int) :=
  match allCompletedPaths with
  | [] => (ctx, [])
  | first :: rest =>
    let bestPath := bestCompletedPath first rest
    let ctx :=
      match ctx.greedyFallback with
      | none => { ctx with greedyFallback := some bestPath }
      | some gf =>
        if bestPath.length > gf.length then
          { ctx with greedyFallback := some bestPath }
        else ctx
    (ctx, allCompletedPaths)

/-- The finalize branch body of `processContext`: emit the greedy
fallback (once, clearing it), then append all completed paths of the
step. -/
def finalizeUpdate (ctx : MatchContext) (completedStates : List MatchState) :
    MatchContext :=
  let ctx :=
    match ctx.greedyFallback with
    | some gf => { ctx.addCompletedPath gf with greedyFallback := none }
    | none => ctx
  addCompletedStates ctx completedStates

/-- The completion check at the end of `processContext`. -/
def completeCheck (ctx : MatchContext) : MatchContext :=
  if ctx.states = [] then
    if ctx.completedPaths ≠ [] ∨ 0 ≤ ctx.matchEnd then
      { ctx with isCompleted := true }
    else ctx
  else ctx

/-- `processContext`: one step of an existing context; returns the
updated context, the paths deferred by the greedy branch
(`greedy_defer` discards), and the dead states. -/
def processContext (pat : Pattern) (ctx : MatchContext) (tv : List Int) :
    MatchContext × List (List Int) × List MatchState :=
  let out := runStep pat ctx.states tv
  let ctx := { ctx with states := out.activeStates }
  let pr :=
    if greedyDeferGuard pat tv out then
      greedyDeferUpdate ctx ((out.completedStates.map (·.getMatchedPaths)).flatten)
    else
      (finalizeUpdate ctx out.completedStates, [])
  (completeCheck (updateMatchEnd pr.1), pr.2, out.deadStates)

/-- Stable insertion used by `sortByMatchStart`: a new element goes
before the first list element it compares `≤` to. -/
def orderedInsertCtx (a : MatchContext) : List MatchContext → List MatchContext
  | [] => [a]
  | b :: l =>
    if a.matchStart ≤ b.matchStart then a :: b :: l
    else b :: orderedInsertCtx a l

/-- Stable sort by `matchStart` (JS `Array.sort` with the
`a.matchStart - b.matchStart` comparator is stable). -/
def sortByMatchStart : List MatchContext → List MatchContext
  | [] => []
  | a :: l => orderedInsertCtx a (sortByMatchStart l)

/-- The counts-domination check of `absorbContexts`: exact equality for
bounded elements, pointwise `≥` for `max = Infinity`. -/
def countsAbsorbable (elemOpt : Option PatternElement) (es ls : MatchState) : Bool :=
  match elemOpt with
  | none => true
  | some elem =>
    match elem.max with
    | none =>
      (List.range es.counts.length).all
        (fun d => ls.counts.getD d 0 ≤ es.counts.getD d 0)
    | some _ =>
      (List.range es.counts.length).all
        (fun d => es.counts.getD d 0 = ls.counts.getD d 0)

/-- `later` is absorbable by `earlier`: every later state is dominated
by some earlier state at the same element. -/
def canAbsorb (pat : Pattern) (earlier later : MatchContext) : Bool :=
  later.states.all fun ls =>
    earlier.states.any fun es =>
      es.elementIndex = ls.elementIndex ∧
        countsAbsorbable (elemAt pat es.elementIndex) es ls

/-- `absorbContexts`: sort by `matchStart`, mark every later
non-completed context dominated by an earlier one, drop the marked. -/
def absorbContexts (pat : Pattern) (contexts : List MatchContext) :
    List MatchContext :=
  if contexts.length ≤ 1 then contexts
  else
    let ctxs := sortByMatchStart contexts
    let flags := (List.range ctxs.length).foldl
      (fun flags i =>
        if flags.getD i false then flags
        else
          let earlier := ctxs.getD i default
          if earlier.isCompleted then flags
          else
            (List.range ctxs.length).foldl
              (fun flags j =>
                if j ≤ i then flags
                else if flags.getD j false then flags
                else
                  let later := ctxs.getD j default
                  if later.isCompleted then flags
                  else if canAbsorb pat earlier later ∧ later.states ≠ [] then
                    flags.set j true
                  else flags)
              flags)
      (List.replicate ctxs.length false)
    ((List.range ctxs.length).filterMap fun i =>
      if flags.getD i false then none else ctxs[i]?)

/-! ## Emitter (src/nfa.js, `emitContext`, `emitRows`) -/

/-- Variable-id to name mapping used when emitting. -/
def varName (pat : Pattern) (v : Int) : String :=
  if v < 0 then "" else pat.vars.getD v.toNat ""

/-- `emitContext`: `ONE_ROW` keeps only the first completed path (the
lexically first — `completedPaths` is kept in lexical insertion order),
`ALL_ROWS` keeps them all; the context-id prefix is stripped and ids
are mapped to names. -/
def emitContext (pat : Pattern) (outputMode : OutputMode)
    (ctx : MatchContext) : EmitResult :=
  let paths := ctx.completedPaths
  let outputPaths :=
    match outputMode with
    | OutputMode.oneRow =>
      match paths with
      | [] => []
      | p :: _ => [p]
    | OutputMode.allRows => paths
  { contextId := ctx.id
    matchStart := ctx.matchStart
    matchEnd := ctx.matchEnd
    paths := outputPaths.map fun path => (path.drop 1).map (varName pat) }

/-- `x ≥ v` against a possibly-infinite bound (`none = Infinity`,
which no finite value reaches). -/
def geOpt (x : Int) (v : Option Int) : Bool :=
  match v with
  | none => false
  | some v => v ≤ x

/-- Minimum `matchStart` over a context list, `none` = `Infinity`. -/
def minStart (l : List MatchContext) (acc : Option Int) : Option Int :=
  l.foldl
    (fun acc c =>
      match acc with
      | none => some c.matchStart
      | some m => if c.matchStart < m then some c.matchStart else some m)
    acc

/-- Accumulator of the immediate-emit loop of `emitRows`. -/
structure EmitAcc where
  queue : List MatchContext
  lastEnd : Int
  emitted : List EmitResult
deriving DecidableEq, Repr, Inhabited

/-- The first loop of `emitRows`: every just-completed context not
already queued is emitted immediately when it is at the earliest start
with no active context there (subject to the `PAST_LAST` overlap
discard), and queued otherwise. -/
def emitImmediateLoop (pat : Pattern) (skipMode : SkipMode)
    (outputMode : OutputMode) (earliestStart : Option Int)
    (hasActiveAtEarliest : Bool) :
    List MatchContext → EmitAcc → EmitAcc
  | [], acc => acc
  | ctx :: rest, acc =>
    let next := emitImmediateLoop pat skipMode outputMode earliestStart hasActiveAtEarliest rest
    if ctx.isCompleted ∧ ctx.completedPaths ≠ [] then
      if acc.queue.any (fun q => q.id = ctx.id) then next acc
      else if some ctx.matchStart = earliestStart ∧ ¬hasActiveAtEarliest then
        if skipMode = SkipMode.pastLast ∧ ctx.matchStart ≤ acc.lastEnd then
          next acc
        else
          next { acc with emitted := acc.emitted ++ [emitContext pat outputMode ctx],
                          lastEnd := ctx.matchEnd }
      else next { acc with queue := acc.queue ++ [ctx] }
    else next acc

/-- The queue-processing loop of `emitRows`: stop at an entry that
starts at or after the earliest active context; under `PAST_LAST`
discard overlapping entries; under `TO_NEXT` wait while the entry
overlaps the active context; emit the rest in order. -/
def emitQueueLoop (pat : Pattern) (skipMode : SkipMode)
    (outputMode : OutputMode) (activeCtxStart : Option Int) :
    List MatchContext → Int → List EmitResult →
    List MatchContext × Int × List EmitResult
  | [], lastEnd, emitted => ([], lastEnd, emitted)
  | ctx :: rest, lastEnd, emitted =>
    if geOpt ctx.matchStart activeCtxStart then (ctx :: rest, lastEnd, emitted)
    else if skipMode = SkipMode.pastLast ∧ ctx.matchStart ≤ lastEnd then
      emitQueueLoop pat skipMode outputMode activeCtxStart rest lastEnd emitted
    else if skipMode = SkipMode.toNext ∧ geOpt ctx.matchEnd activeCtxStart then
      (ctx :: rest, lastEnd, emitted)
    else
      emitQueueLoop pat skipMode outputMode activeCtxStart rest ctx.matchEnd
        (emitted ++ [emitContext pat outputMode ctx])

/-- `emitRows`: queue/emit the completed contexts, then process the
queue in `matchStart` order.  Returns the new queue, the new
`lastEmittedEnd` and the emissions of this call, in order. -/
def emitRows (pat : Pattern) (skipMode : SkipMode) (outputMode : OutputMode)
    (contexts : List MatchContext) (queue0 : List MatchContext)
    (lastEnd0 : Int) : List MatchContext × Int × List EmitResult :=
  let earliestStart := minStart queue0 (minStart contexts none)
  let hasActiveAtEarliest := contexts.any
    (fun c => some c.matchStart = earliestStart ∧ ¬c.isCompleted)
  let acc := emitImmediateLoop pat skipMode outputMode earliestStart
    hasActiveAtEarliest contexts ⟨queue0, lastEnd0, []⟩
  let queue := sortByMatchStart acc.queue
  let activeCtxStart : Option Int :=
    (contexts.find? (fun c => ¬c.isCompleted)).map (·.matchStart)
  emitQueueLoop pat skipMode outputMode activeCtxStart queue acc.lastEnd acc.emitted

/-! ## Per-row driver (src/nfa.js, `processRow`) -/

/-- The semantic content of a `processRow` return value (the snapshot
and log material of the source is diagnostic only). -/
structure RowResult where
  row : Int
  emitted : List EmitResult
  discarded : List (List Int)
  dead : List MatchState
deriving DecidableEq, Repr, Inhabited

/-- The body of `processRow`'s step-2 loop: skip completed and
just-created contexts, step the rest, collecting the discarded paths
and dead states. -/
def stepFoldFn (pat : Pattern) (tv : List Int) (row : Int)
    (acc : List MatchContext × List (List Int) × List MatchState)
    (ctx : MatchContext) : List MatchContext × List (List Int) × List MatchState :=
  if ctx.isCompleted ∨ ctx.matchStart = row then (acc.1 ++ [ctx], acc.2)
  else
    (acc.1 ++ [(processContext pat ctx tv).1],
     acc.2.1 ++ (processContext pat ctx tv).2.1,
     acc.2.2 ++ (processContext pat ctx tv).2.2)

/-- `processRow`: resolve the names, try to start a context, step every
existing context, absorb, emit, and drop dead and finished contexts.
The row index is `currentRow + 1`, assigned by the executor itself —
`processRow` takes no row-index argument. -/
def processRow (s : ExecState) (trueVarNames : List String) :
    ExecState × RowResult :=
  let tv := toVarIds s.pattern trueVarNames
  let row := s.currentRow + 1
  let ts := tryStartNewContext s.pattern row tv s.contexts s.nextCtxId
  let step := ts.1.foldl (stepFoldFn s.pattern tv row) ([], [], [])
  let contexts2 := step.1
  let contexts3 := absorbContexts s.pattern contexts2
  let er :=
    emitRows s.pattern s.skipMode s.outputMode contexts3 s.completedContexts
      s.lastEmittedEnd
  let contexts4 := contexts3.filter (fun c => c.states ≠ [] ∧ ¬c.isCompleted)
  ({ s with contexts := contexts4
            currentRow := row
            completedContexts := er.1
            emittedResults := s.emittedResults ++ er.2.2
            lastEmittedEnd := er.2.1
            nextCtxId := ts.2 },
   { row := row, emitted := er.2.2, discarded := step.2.1, dead := step.2.2 })

/-- Feed a stream of rows (each a list of true variable names). -/
def runRows (s : ExecState) : List (List String) → ExecState
  | [] => s
  | row :: rest => runRows (processRow s row).1 rest

/-- Extract the pattern of a successful parse (used to state concrete
end-to-end runs; every use is backed by a proved `Except.ok`). -/
def getOkPattern : Except String Pattern → Pattern
  | Except.ok p => p
  | Except.error _ => default

/-- Does the parse succeed? -/
def parseOk : Except String Pattern → Bool
  | Except.ok _ => true
  | Except.error _ => false

/-! # Claim theorems -/

/-! ## C1 — the `(A | B C)+` end-to-end scenario -/

/-- C1: compiling the pattern string `(A | B C)+` and executing it with
the default configuration (SKIP `PAST_LAST`, OUTPUT `ONE_ROW`) on the
three-row stream `[A], [B], [D]` emits exactly one match, with
`match_start = 0`, `match_end = 0` and the single path `["A"]` (the
length-1 completion survives after the `B C` arm dies at row 2). -/
theorem claim_C1 :
    parseOk (parsePattern "(A | B C)+" false) = true ∧
    (runRows
      (initExec (getOkPattern (parsePattern "(A | B C)+" false))
        SkipMode.pastLast OutputMode.oneRow)
      [["A"], ["B"], ["D"]]).emittedResults =
      [{ contextId := 0, matchStart := 0, matchEnd := 0, paths := [["A"]] }] := by
  decide

/-! ## C10 — the empty pattern -/

/-- The compiled empty pattern: the lone `#FIN` sentinel. -/
def emptyPattern : Pattern :=
  { elements := [{ varId := -3 }], vars := [], maxDepth := 0, reluctant := false }

/-- On the empty pattern no context can ever start: the initial state
expands directly to the completion sentinel, which can never consume. -/
theorem tryStart_emptyPattern (row : Int) (tv : List Int)
    (ctxs : List MatchContext) (n : Nat) :
    tryStartNewContext emptyPattern row tv ctxs n = (ctxs, n) := rfl

/-- A `processRow` on an `emptyPattern` executor with no contexts and an
empty queue only advances `currentRow`. -/
theorem processRow_emptyPattern (s : ExecState) (names : List String)
    (hp : s.pattern = emptyPattern) (hc : s.contexts = [])
    (hq : s.completedContexts = []) :
    (processRow s names).1 =
      { s with contexts := [], completedContexts := [],
               currentRow := s.currentRow + 1 } := by
  obtain ⟨pat, ctxs, row, sk, om, q, em, le, nid⟩ := s
  simp only at hp hc hq
  subst hp hc hq
  simp [processRow, tryStart_emptyPattern, absorbContexts, emitRows, minStart,
    emitImmediateLoop, sortByMatchStart, emitQueueLoop]

/-- Run-level form: the empty-pattern executor never accumulates
contexts, queue entries or emissions. -/
theorem runRows_emptyPattern (rows : List (List String)) :
    ∀ s : ExecState, s.pattern = emptyPattern → s.contexts = [] →
      s.completedContexts = [] →
      (runRows s rows).contexts = [] ∧
      (runRows s rows).completedContexts = [] ∧
      (runRows s rows).emittedResults = s.emittedResults := by
  induction rows with
  | nil => intro s hp hc hq; simp [runRows, hc, hq]
  | cons r rest ih =>
    intro s hp hc hq
    rw [runRows, processRow_emptyPattern s r hp hc hq]
    exact ih _ hp rfl rfl

/-- C10: the empty pattern string parses successfully into a `Pattern`
holding exactly the `#FIN` element (no variables, `maxDepth 0`), and an
executor built from it never creates a context, never queues and never
emits, on every row stream and configuration. -/
theorem claim_C10 :
    parsePattern "" false = Except.ok emptyPattern ∧
    emptyPattern.elements = [{ varId := -3 }] ∧
    emptyPattern.vars = [] ∧ emptyPattern.maxDepth = 0 ∧
    ∀ (skipMode : SkipMode) (outputMode : OutputMode) (rows : List (List String)),
      (runRows (initExec emptyPattern skipMode outputMode) rows).contexts = [] ∧
      (runRows (initExec emptyPattern skipMode outputMode) rows).completedContexts = [] ∧
      (runRows (initExec emptyPattern skipMode outputMode) rows).emittedResults = [] := by
  refine ⟨rfl, rfl, rfl, rfl, fun sk om rows => ?_⟩
  exact runRows_emptyPattern rows (initExec emptyPattern sk om) rfl rfl rfl

/-! ## C8 — there is no out-of-order row rejection -/

/-- C8 counterexample: the executor's row interface carries no row
index at all — `processRow` takes only the true-variable names, indexes
the call itself as `currentRow + 1`, and always processes it.  On the
pattern `A`, the first call is processed as row 0 (it even emits a
match) and the second as row 1; no driver error exists, so the claimed
rejection of out-of-order submissions cannot occur. -/
theorem claim_C8_counterexample :
    ((processRow (initExec (getOkPattern (parsePattern "A" false))
        SkipMode.pastLast OutputMode.oneRow) ["A"]).2.row = 0 ∧
     (processRow (initExec (getOkPattern (parsePattern "A" false))
        SkipMode.pastLast OutputMode.oneRow) ["A"]).2.emitted ≠ []) ∧
    (processRow (processRow (initExec (getOkPattern (parsePattern "A" false))
        SkipMode.pastLast OutputMode.oneRow) ["A"]).1 ["A"]).2.row = 1 := by
  decide

/-- C8 amended: `processRow` accepts no row index; every call is
processed for the internally assigned row `currentRow + 1` (and
advances `currentRow` by exactly one), so out-of-order submission is
not expressible at this interface and no ordering error is ever
raised. -/
theorem claim_C8_amended (s : ExecState) (names : List String) :
    (processRow s names).2.row = s.currentRow + 1 ∧
    (processRow s names).1.currentRow = s.currentRow + 1 :=
  ⟨rfl, rfl⟩

/-! ## C9 — unknown variable names are ignored -/

/-- `toVarIds` only sees the names that are in the alphabet. -/
theorem toVarIds_filter (pat : Pattern) (names : List String) :
    toVarIds pat (names.filter (fun n => pat.vars.contains n)) =
      toVarIds pat names := by
  unfold toVarIds
  congr 1
  apply List.filter_congr
  intro i hi
  simp only [List.mem_range] at hi
  have hmem : pat.vars.getD i "" ∈ pat.vars := by
    rw [List.getD_eq_getElem?_getD, List.getElem?_eq_getElem hi]
    exact List.getElem_mem hi
  rw [List.getD_eq_getElem?_getD] at hmem
  simp [List.mem_filter, hmem]

/-- One call: `processRow` depends on the row only through
`toVarIds`. -/
theorem processRow_filter (s : ExecState) (names : List String) :
    processRow s (names.filter (fun n => s.pattern.vars.contains n)) =
      processRow s names := by
  unfold processRow
  rw [toVarIds_filter]

/-- C9: names outside the pattern alphabet are silently ignored (no
error is possible — `processRow` is total): every `processRow` call,
and hence every run and its emission sequence, is unchanged when each
row is replaced by its intersection with `Pattern.variables`. -/
theorem claim_C9 :
    (∀ (s : ExecState) (names : List String),
      processRow s (names.filter (fun n => s.pattern.vars.contains n)) =
        processRow s names) ∧
    ∀ (pat : Pattern) (sk : SkipMode) (om : OutputMode) (rows : List (List String)),
      runRows (initExec pat sk om)
          (rows.map (fun r => r.filter (fun n => pat.vars.contains n))) =
        runRows (initExec pat sk om) rows := by
  refine ⟨processRow_filter, fun pat sk om rows => ?_⟩
  suffices h : ∀ s : ExecState, s.pattern = pat →
      runRows s (rows.map (fun r => r.filter (fun n => pat.vars.contains n))) =
        runRows s rows by
    exact h _ rfl
  induction rows with
  | nil => intro s _; rfl
  | cons r rest ih =>
    intro s hp
    rw [List.map_cons, runRows, runRows]
    have h1 : processRow s (r.filter (fun n => pat.vars.contains n)) = processRow s r := by
      rw [← hp]; exact processRow_filter s r
    rw [h1]
    exact ih _ hp

/-! ## C5 — ONE_ROW / ALL_ROWS emission shape -/

/-- C5: for a context with completed paths, `ONE_ROW` emits exactly one
path — the first (lexically first: `completedPaths` is kept in lexical
order, the source's seq-order) mapped to names with the context-id
entry stripped — and `ALL_ROWS` emits every completed path in that
order. -/
theorem claim_C5 (pat : Pattern) (ctx : MatchContext)
    (h : ctx.completedPaths ≠ []) :
    (emitContext pat OutputMode.oneRow ctx).paths =
      [((ctx.completedPaths.headD []).drop 1).map (varName pat)] ∧
    (emitContext pat OutputMode.allRows ctx).paths =
      ctx.completedPaths.map (fun p => (p.drop 1).map (varName pat)) := by
  match hcp : ctx.completedPaths, h with
  | p :: rest, _ =>
    constructor
    · simp [emitContext, hcp]
    · simp [emitContext, hcp]

/-- Witness for C5 at a concrete two-path context. -/
def c5Pat : Pattern := { elements := [], vars := ["A", "B"], maxDepth := 0, reluctant := false }

def c5Ctx : MatchContext :=
  { id := 3, matchStart := 0, matchEnd := 1, isCompleted := true, states := [],
    completedPaths := [[3, 0, 1], [3, 1]], greedyFallback := none }

theorem claim_C5_witness :
    c5Ctx.completedPaths ≠ [] ∧
    ((emitContext c5Pat OutputMode.oneRow c5Ctx).paths =
      [((c5Ctx.completedPaths.headD []).drop 1).map (varName c5Pat)] ∧
     (emitContext c5Pat OutputMode.allRows c5Ctx).paths =
      c5Ctx.completedPaths.map (fun p => (p.drop 1).map (varName c5Pat))) :=
  ⟨by decide, claim_C5 c5Pat c5Ctx (by decide)⟩

/-! ## C3 — AltStart group exit when no arm matches -/

/-- The pattern `(A|B)* C`: element 0 is the `#ALT`, element 3 the
`#END` (min 0), element 4 the `Var C`. -/
def c3Pat : Pattern := getOkPattern (parsePattern "(A|B)* C" false)

def c3State : MatchState := ⟨0, [0, 0, 0], freshSummaries⟩

def c3Elem : PatternElement := c3Pat.elements.getD 0 default

def c3End : PatternElement := c3Pat.elements.getD 3 default

/-- The group-exit state: counts reset at the `#END` depth, positioned
at `GroupEnd.next` (the `Var C`). -/
def c3Exit : MatchState := ⟨4, [0, 0, 0], freshSummaries⟩

/-- C3 counterexample: on `(A|B)* C` with no variable true, the state
at the `#ALT` satisfies every premise of the claim — no arm yields a
successor, the enclosing `#END.min = 0` is satisfied, and the recursive
transition from `GroupEnd.next` (the `Var C`, mismatching) yields
nothing — yet `transitionAlt` (and the enclosing `transition` at the
executor's fuel) returns the surviving exit state rather than no
successor: the state does not die. -/
theorem claim_C3_counterexample :
    (elemAt c3Pat 0 = some c3Elem ∧ c3Elem.isAltStart = true) ∧
    (altArms c3Pat 100 c3Elem.next c3State [] = [] ∧
     findGroupEnd c3Pat c3Elem = some c3End ∧
     c3End.min ≤ c3State.counts.getD c3End.depth 0 ∧
     transition c3Pat 100 c3Exit [] = []) ∧
    transitionAlt c3Pat 101 c3State c3Elem [] = [c3Exit] ∧
    transition c3Pat (transFuel c3Pat) c3State [] = [c3Exit] := by
  decide

/-- C3 amended: at an `#ALT` where no arm yields a successor, if the
enclosing `#END.min` is satisfied by the current counts then the
transition resets the group count and recurses from `GroupEnd.next`;
when that recursion yields successors they are the result, and when it
yields zero successors the state survives as the single bare exit
state positioned at `GroupEnd.next` (it does not die). -/
theorem claim_C3_amended (pat : Pattern) (fuel : Nat) (state : MatchState)
    (elem endElem : PatternElement) (tv : List Int)
    (harms : altArms pat fuel elem.next state tv = [])
    (hend : findGroupEnd pat elem = some endElem)
    (hmin : endElem.min ≤ state.counts.getD endElem.depth 0)
    (hrec : transition pat fuel
      { state with counts := state.counts.set endElem.depth 0,
                   elementIndex := endElem.next } tv = []) :
    transitionAlt pat (fuel + 1) state elem tv =
      [{ state with counts := state.counts.set endElem.depth 0,
                    elementIndex := endElem.next }] := by
  unfold transitionAlt
  unfold altArms at harms
  unfold transition at hrec
  rw [List.getD_eq_getElem?_getD] at hmin
  rw [transRun]
  simp [harms, hend, hmin, hrec]

/-- Witness for the C3 amended theorem at the `(A|B)* C` input. -/
theorem claim_C3_amended_witness :
    (altArms c3Pat 100 c3Elem.next c3State [] = [] ∧
     findGroupEnd c3Pat c3Elem = some c3End ∧
     c3End.min ≤ c3State.counts.getD c3End.depth 0 ∧
     transition c3Pat 100
       { c3State with counts := c3State.counts.set c3End.depth 0,
                      elementIndex := c3End.next } [] = []) ∧
    transitionAlt c3Pat 101 c3State c3Elem [] =
      [{ c3State with counts := c3State.counts.set c3End.depth 0,
                      elementIndex := c3End.next }] :=
  ⟨⟨by decide, by decide, by decide, by decide⟩,
   claim_C3_amended c3Pat 100 c3State c3Elem c3End []
     (by decide) (by decide) (by decide) (by decide)⟩

/-! Projection facts about the `processContext` phases, used to settle
C2. -/

theorem updateMatchEnd_completedPaths (c : MatchContext) :
    (updateMatchEnd c).completedPaths = c.completedPaths := by
  unfold updateMatchEnd; split <;> rfl

theorem updateMatchEnd_greedyFallback (c : MatchContext) :
    (updateMatchEnd c).greedyFallback = c.greedyFallback := by
  unfold updateMatchEnd; split <;> rfl

theorem completeCheck_completedPaths (c : MatchContext) :
    (completeCheck c).completedPaths = c.completedPaths := by
  unfold completeCheck; split_ifs <;> rfl

theorem completeCheck_greedyFallback (c : MatchContext) :
    (completeCheck c).greedyFallback = c.greedyFallback := by
  unfold completeCheck; split_ifs <;> rfl

theorem addCompletedPath_greedyFallback (c : MatchContext) (p : List Int) :
    (c.addCompletedPath p).greedyFallback = c.greedyFallback := by
  unfold MatchContext.addCompletedPath; split_ifs <;> rfl

theorem foldl_addCompletedPath_greedyFallback (ps : List (List Int)) :
    ∀ c : MatchContext,
      (ps.foldl MatchContext.addCompletedPath c).greedyFallback = c.greedyFallback := by
  induction ps with
  | nil => intro c; rfl
  | cons p rest ih =>
    intro c
    rw [List.foldl_cons, ih, addCompletedPath_greedyFallback]

theorem addCompletedStates_greedyFallback (sts : List MatchState) :
    ∀ c : MatchContext,
      (addCompletedStates c sts).greedyFallback = c.greedyFallback := by
  induction sts with
  | nil => intro c; rfl
  | cons s rest ih =>
    intro c
    unfold addCompletedStates at ih ⊢
    rw [List.foldl_cons, ih, foldl_addCompletedPath_greedyFallback]

/-- The finalize branch always ends with a cleared greedy fallback. -/
theorem finalizeUpdate_greedyFallback (c : MatchContext) (sts : List MatchState) :
    (finalizeUpdate c sts).greedyFallback = none := by
  unfold finalizeUpdate
  cases hfb : c.greedyFallback with
  | none => rw [addCompletedStates_greedyFallback]; exact hfb
  | some gf => rw [addCompletedStates_greedyFallback]

/-- Deferral reports exactly the step completions. -/
theorem greedyDeferUpdate_discarded (c : MatchContext) {l : List (List Int)}
    (h : l ≠ []) : (greedyDeferUpdate c l).2 = l := by
  unfold greedyDeferUpdate
  cases l with
  | nil => exact absurd rfl h
  | cons f r => cases c.greedyFallback <;> simp

theorem greedyDeferUpdate_discarded_ne (c : MatchContext) {l : List (List Int)}
    (h : l ≠ []) : (greedyDeferUpdate c l).2 ≠ [] := by
  rw [greedyDeferUpdate_discarded c h]; exact h

/-- Deferral does not touch `completed_paths`. -/
theorem greedyDeferUpdate_completedPaths (c : MatchContext) (l : List (List Int)) :
    (greedyDeferUpdate c l).1.completedPaths = c.completedPaths := by
  unfold greedyDeferUpdate
  cases l with
  | nil => rfl
  | cons f r =>
    cases c.greedyFallback with
    | none => rfl
    | some gf => simp only; split <;> rfl

/-- The `greedy_defer` discards of `processContext` are exactly the
step completions under the guard, nothing otherwise. -/
theorem processContext_discarded (pat : Pattern) (ctx : MatchContext) (tv : List Int) :
    (processContext pat ctx tv).2.1 =
      if greedyDeferGuard pat tv (runStep pat ctx.states tv) then
        (greedyDeferUpdate { ctx with states := (runStep pat ctx.states tv).activeStates }
          (((runStep pat ctx.states tv).completedStates.map
            MatchState.getMatchedPaths).flatten)).2
      else [] := by
  unfold processContext
  by_cases hg : greedyDeferGuard pat tv (runStep pat ctx.states tv) = true <;>
    simp [hg]

/-- The context component of `processContext` in terms of the phase
functions. -/
theorem processContext_ctx (pat : Pattern) (ctx : MatchContext) (tv : List Int) :
    (processContext pat ctx tv).1 =
      if greedyDeferGuard pat tv (runStep pat ctx.states tv) then
        completeCheck (updateMatchEnd
          (greedyDeferUpdate { ctx with states := (runStep pat ctx.states tv).activeStates }
            (((runStep pat ctx.states tv).completedStates.map
              MatchState.getMatchedPaths).flatten)).1)
      else
        completeCheck (updateMatchEnd
          (finalizeUpdate { ctx with states := (runStep pat ctx.states tv).activeStates }
            (runStep pat ctx.states tv).completedStates)) := by
  unfold processContext
  by_cases hg : greedyDeferGuard pat tv (runStep pat ctx.states tv) = true <;>
    simp [hg]

/-! ## C2 — the greedy-deferral condition -/

/-- The claim's (and spec §4.2.8's) version of "some live state can
actually progress": a `Var` true in the row, or an `#ALT` whose
*recursive* arm search (`canAltMatch`, searching through nested
alternations) hits a matching `Var`.  The source's `processContext`
instead uses the non-recursive `canProgressFurther` walk. -/
def canProgressSpec (pat : Pattern) (tv : List Int)
    (states : List MatchState) : Bool :=
  states.any fun s =>
    match elemAt pat s.elementIndex with
    | none => false
    | some elem =>
      if elem.isVar then hasVarId tv elem.varId
      else if elem.isAltStart then canAltMatch pat elem tv
      else false

/-- The pattern `A (B | (C | D) E)*`: the second arm of the outer
alternation starts with a nested `#ALT`. -/
def c2Pat : Pattern := getOkPattern (parsePattern "A (B | (C | D) E)*" false)

/-- The context after rows `[A]`, `[C]`: one live state at the `Var E`,
completed path `[A]` already committed. -/
def c2Ctx : MatchContext :=
  (runRows (initExec c2Pat SkipMode.pastLast OutputMode.oneRow)
    [["A"], ["C"]]).contexts.headD default

/-- Row 2 input `\x7bE, C\x7d`. -/
def c2Tv : List Int := toVarIds c2Pat ["E", "C"]

/-- C2 counterexample: at row 2 of `A (B | (C | D) E)*` on
`[A],[C],[E C]`, the per-context step produces both completed states
(the completion `A C E`) and a still-live state at the outer `#ALT`;
the pattern is not reluctant, the row has pattern variables true, and
the claim's recursive arm search succeeds (the nested `(C | D)` arm
holds the true `C`) — so the claim requires the completions to be
deferred.  The code finalizes instead: its arm walk does not recurse
into the nested `#ALT`, nothing is deferred (`discarded = []`, no
greedy fallback is set) and the completion is appended to
`completed_paths`. -/
theorem claim_C2_counterexample :
    ((runStep c2Pat c2Ctx.states c2Tv).completedStates ≠ [] ∧
     (runStep c2Pat c2Ctx.states c2Tv).activeStates ≠ []) ∧
    (c2Pat.reluctant = false ∧ c2Tv ≠ [] ∧
     canProgressSpec c2Pat c2Tv (runStep c2Pat c2Ctx.states c2Tv).activeStates = true) ∧
    (processContext c2Pat c2Ctx c2Tv).2.1 = [] ∧
    (processContext c2Pat c2Ctx c2Tv).1.greedyFallback = none ∧
    (processContext c2Pat c2Ctx c2Tv).1.completedPaths =
      c2Ctx.completedPaths ++ [[(c2Ctx.id : Int), 0, 2, 4]] := by
  decide

/-- C2 amended: in a per-context step that produces completed states
(with at least one completed path) and still-live active states, the
completions are deferred — all of them recorded as `greedy_defer`
discards, `completed_paths` untouched — if and only if the pattern is
not globally reluctant, the row has a pattern variable true, and the
live states can progress per the source's `canProgressFurther` check,
whose arm walk examines only the first element of each alternative
(following the `jump` chain) and does **not** recurse into nested
alternations; otherwise the step finalizes and clears any greedy
fallback. -/
theorem claim_C2_amended (pat : Pattern) (ctx : MatchContext) (tv : List Int)
    (hpaths : ((runStep pat ctx.states tv).completedStates.map
      MatchState.getMatchedPaths).flatten ≠ [])
    (hact : (runStep pat ctx.states tv).activeStates ≠ []) :
    ((processContext pat ctx tv).2.1 ≠ [] ↔
      (¬pat.reluctant ∧ tv ≠ [] ∧
        canProgressFurther pat tv (runStep pat ctx.states tv).activeStates = true)) ∧
    ((processContext pat ctx tv).2.1 ≠ [] →
      (processContext pat ctx tv).2.1 =
        ((runStep pat ctx.states tv).completedStates.map
          MatchState.getMatchedPaths).flatten ∧
      (processContext pat ctx tv).1.completedPaths = ctx.completedPaths) ∧
    ((processContext pat ctx tv).2.1 = [] →
      (processContext pat ctx tv).1.greedyFallback = none) := by
  have hcs : (runStep pat ctx.states tv).completedStates ≠ [] := by
    intro h
    rw [h] at hpaths
    exact hpaths rfl
  have htv : (tv ≠ []) ↔ (tv.length > 0) := by
    cases tv <;> simp
  have hd := processContext_discarded pat ctx tv
  have hc1 := processContext_ctx pat ctx tv
  by_cases hg : greedyDeferGuard pat tv (runStep pat ctx.states tv) = true
  · have hg' := hg
    unfold greedyDeferGuard at hg'
    simp only [decide_eq_true_eq, Bool.and_eq_true, decide_eq_true_iff] at hg'
    simp only [hg, if_true] at hd hc1
    refine ⟨⟨fun _ => ⟨?_, ?_, ?_⟩, fun _ => ?_⟩, fun _ => ⟨?_, ?_⟩, fun h0 => ?_⟩
    · simpa using hg'.1
    · rw [htv]; simpa using hg'.2.2.2.2
    · simpa using hg'.2.2.2.1
    · rw [hd]
      exact greedyDeferUpdate_discarded_ne _ hpaths
    · rw [hd, greedyDeferUpdate_discarded _ hpaths]
    · rw [hc1, completeCheck_completedPaths, updateMatchEnd_completedPaths,
        greedyDeferUpdate_completedPaths]
    · exfalso
      rw [hd] at h0
      exact greedyDeferUpdate_discarded_ne _ hpaths h0
  · simp only [Bool.not_eq_true] at hg
    simp only [hg, Bool.false_eq_true, if_false] at hd hc1
    have hg' := hg
    unfold greedyDeferGuard at hg'
    refine ⟨⟨fun h => absurd hd h, fun h => ?_⟩, fun h => absurd hd h, fun _ => ?_⟩
    · exfalso
      obtain ⟨h1, h2, h3⟩ := h
      rw [htv] at h2
      simp only [decide_eq_true_eq, Bool.and_eq_true, decide_eq_true_iff,
        Bool.not_eq_true] at hg'
      simp [h1, hcs, hact, h3, h2] at hg'
    · rw [hc1, completeCheck_greedyFallback, updateMatchEnd_greedyFallback,
        finalizeUpdate_greedyFallback]

/-- Witness for the C2 amended theorem: on `A B*` after `[A]`, row `[B]`
defers — the step completes `A B` while the live `B*` state can still
progress. -/
def c2wPat : Pattern := getOkPattern (parsePattern "A B*" false)

def c2wCtx : MatchContext :=
  (runRows (initExec c2wPat SkipMode.pastLast OutputMode.oneRow)
    [["A"]]).contexts.headD default

def c2wTv : List Int := toVarIds c2wPat ["B"]

theorem claim_C2_amended_witness :
    (((runStep c2wPat c2wCtx.states c2wTv).completedStates.map
      MatchState.getMatchedPaths).flatten ≠ [] ∧
     (runStep c2wPat c2wCtx.states c2wTv).activeStates ≠ []) ∧
    (processContext c2wPat c2wCtx c2wTv).2.1 ≠ [] :=
  ⟨⟨by decide, by decide⟩,
   (claim_C2_amended c2wPat c2wCtx c2wTv (by decide) (by decide)).1.mpr
     ⟨by decide, by decide, by decide⟩⟩

/-! ## C6 — no two states of a retained context share
`(element_index, counts)` -/

theorem stateKey_mergeSummaries (a b : MatchState) :
    stateKey (a.mergeSummaries b) = stateKey a := rfl

/-- `insertMerge` leaves the key list unchanged on a hit and appends
the new key on a miss. -/
theorem insertMerge_map_key (s : MatchState) :
    ∀ l : List MatchState,
      (insertMerge l s).map stateKey =
        if stateKey s ∈ l.map stateKey then l.map stateKey
        else l.map stateKey ++ [stateKey s] := by
  intro l
  induction l with
  | nil => simp [insertMerge]
  | cons t rest ih =>
    by_cases h : stateKey t = stateKey s
    · simp [insertMerge, h, stateKey_mergeSummaries]
    · have hne : stateKey s ≠ stateKey t := fun hh => h hh.symm
      simp only [insertMerge, h, if_false, List.map_cons, List.mem_cons, hne,
        false_or]
      rw [ih]
      split <;> simp

theorem nodup_insertMerge {l : List MatchState}
    (h : (l.map stateKey).Nodup) (s : MatchState) :
    ((insertMerge l s).map stateKey).Nodup := by
  rw [insertMerge_map_key]
  split
  · exact h
  · next hn => simp [List.nodup_append, h, hn]

/-- `mergeStates` produces pairwise-distinct `(element_index, counts)`
keys. -/
theorem mergeStates_nodupKeys (states : List MatchState) :
    ((mergeStates states).map stateKey).Nodup := by
  suffices h : ∀ acc : List MatchState, (acc.map stateKey).Nodup →
      ((states.foldl insertMerge acc).map stateKey).Nodup by
    exact h [] (by simp)
  induction states with
  | nil => intro acc h; exact h
  | cons s rest ih =>
    intro acc h
    exact ih _ (nodup_insertMerge h s)

/-- The live states a step leaves behind are `mergeStates` output. -/
theorem runStep_activeStates_nodup (pat : Pattern) (states : List MatchState)
    (tv : List Int) :
    (((runStep pat states tv).activeStates).map stateKey).Nodup := by
  unfold runStep
  exact mergeStates_nodupKeys _

/-! States and `matchStart` pass through the context-update phases
unchanged. -/

theorem addCompletedPath_states (c : MatchContext) (p : List Int) :
    (c.addCompletedPath p).states = c.states := by
  unfold MatchContext.addCompletedPath; split_ifs <;> rfl

theorem addCompletedPath_matchStart (c : MatchContext) (p : List Int) :
    (c.addCompletedPath p).matchStart = c.matchStart := by
  unfold MatchContext.addCompletedPath; split_ifs <;> rfl

theorem foldl_addCompletedPath_states (ps : List (List Int)) :
    ∀ c : MatchContext, (ps.foldl MatchContext.addCompletedPath c).states = c.states := by
  induction ps with
  | nil => intro c; rfl
  | cons p rest ih => intro c; rw [List.foldl_cons, ih, addCompletedPath_states]

theorem foldl_addCompletedPath_matchStart (ps : List (List Int)) :
    ∀ c : MatchContext,
      (ps.foldl MatchContext.addCompletedPath c).matchStart = c.matchStart := by
  induction ps with
  | nil => intro c; rfl
  | cons p rest ih => intro c; rw [List.foldl_cons, ih, addCompletedPath_matchStart]

theorem addCompletedStates_states (sts : List MatchState) :
    ∀ c : MatchContext, (addCompletedStates c sts).states = c.states := by
  induction sts with
  | nil => intro c; rfl
  | cons s rest ih =>
    intro c
    unfold addCompletedStates at ih ⊢
    rw [List.foldl_cons, ih, foldl_addCompletedPath_states]

theorem addCompletedStates_matchStart (sts : List MatchState) :
    ∀ c : MatchContext, (addCompletedStates c sts).matchStart = c.matchStart := by
  induction sts with
  | nil => intro c; rfl
  | cons s rest ih =>
    intro c
    unfold addCompletedStates at ih ⊢
    rw [List.foldl_cons, ih, foldl_addCompletedPath_matchStart]

theorem updateMatchEnd_states (c : MatchContext) :
    (updateMatchEnd c).states = c.states := by
  unfold updateMatchEnd; split <;> rfl

theorem updateMatchEnd_matchStart (c : MatchContext) :
    (updateMatchEnd c).matchStart = c.matchStart := by
  unfold updateMatchEnd; split <;> rfl

theorem completeCheck_states (c : MatchContext) :
    (completeCheck c).states = c.states := by
  unfold completeCheck; split_ifs <;> rfl

theorem completeCheck_matchStart (c : MatchContext) :
    (completeCheck c).matchStart = c.matchStart := by
  unfold completeCheck; split_ifs <;> rfl

theorem greedyDeferUpdate_states (c : MatchContext) (l : List (List Int)) :
    (greedyDeferUpdate c l).1.states = c.states := by
  unfold greedyDeferUpdate
  cases l with
  | nil => rfl
  | cons f r =>
    cases c.greedyFallback with
    | none => rfl
    | some gf => simp only; split <;> rfl

theorem greedyDeferUpdate_matchStart (c : MatchContext) (l : List (List Int)) :
    (greedyDeferUpdate c l).1.matchStart = c.matchStart := by
  unfold greedyDeferUpdate
  cases l with
  | nil => rfl
  | cons f r =>
    cases c.greedyFallback with
    | none => rfl
    | some gf => simp only; split <;> rfl

theorem finalizeUpdate_states (c : MatchContext) (sts : List MatchState) :
    (finalizeUpdate c sts).states = c.states := by
  unfold finalizeUpdate
  cases c.greedyFallback with
  | none => rw [addCompletedStates_states]
  | some gf => rw [addCompletedStates_states]; exact addCompletedPath_states c gf

theorem finalizeUpdate_matchStart (c : MatchContext) (sts : List MatchState) :
    (finalizeUpdate c sts).matchStart = c.matchStart := by
  unfold finalizeUpdate
  cases c.greedyFallback with
  | none => rw [addCompletedStates_matchStart]
  | some gf =>
    rw [addCompletedStates_matchStart]; exact addCompletedPath_matchStart c gf

/-- The states `processContext` leaves are exactly the step's merged
active states. -/
theorem processContext_states (pat : Pattern) (ctx : MatchContext) (tv : List Int) :
    (processContext pat ctx tv).1.states =
      (runStep pat ctx.states tv).activeStates := by
  rw [processContext_ctx]
  split <;> rw [completeCheck_states, updateMatchEnd_states]
  · rw [greedyDeferUpdate_states]
  · rw [finalizeUpdate_states]

theorem processContext_matchStart (pat : Pattern) (ctx : MatchContext) (tv : List Int) :
    (processContext pat ctx tv).1.matchStart = ctx.matchStart := by
  rw [processContext_ctx]
  split <;> rw [completeCheck_matchStart, updateMatchEnd_matchStart]
  · rw [greedyDeferUpdate_matchStart]
  · rw [finalizeUpdate_matchStart]

/-- The built context keeps the step's active states and the given
start row. -/
theorem ite_states (c : Prop) [Decidable c] (a b : MatchContext) :
    (if c then a else b).states = if c then a.states else b.states := by
  split <;> rfl

theorem ite_matchStart (c : Prop) [Decidable c] (a b : MatchContext) :
    (if c then a else b).matchStart = if c then a.matchStart else b.matchStart := by
  split <;> rfl

theorem startCtxBuild_states (row : Int) (n : Nat) (out : StepOut) :
    (startCtxBuild row n out).states = out.activeStates := by
  simp only [startCtxBuild, ite_states, updateMatchEnd_states,
    addCompletedStates_states]
  split_ifs <;> rfl

theorem startCtxBuild_matchStart (row : Int) (n : Nat) (out : StepOut) :
    (startCtxBuild row n out).matchStart = row := by
  simp only [startCtxBuild, ite_matchStart, updateMatchEnd_matchStart,
    addCompletedStates_matchStart]
  split_ifs <;> rfl

/-- Every context produced by `tryStartNewContext` is an input context
or the freshly stepped one (dedup states, `matchStart = row`). -/
theorem tryStart_mem (pat : Pattern) (row : Int) (tv : List Int)
    (ctxs : List MatchContext) (n : Nat) :
    ∀ c ∈ (tryStartNewContext pat row tv ctxs n).1,
      c ∈ ctxs ∨ ((c.states.map stateKey).Nodup ∧ c.matchStart = row) := by
  intro c hc
  unfold tryStartNewContext at hc
  split at hc
  · exact Or.inl hc
  · split at hc
    · exact Or.inl hc
    · split at hc
      · rcases List.mem_append.mp hc with h | h
        · exact Or.inl h
        · rcases List.mem_singleton.mp h with rfl
          refine Or.inr ⟨?_, startCtxBuild_matchStart _ _ _⟩
          rw [startCtxBuild_states]
          exact runStep_activeStates_nodup _ _ _
      · exact Or.inl hc

/-- Membership through the step-2 fold. -/
theorem stepFold_mem (pat : Pattern) (tv : List Int) (row : Int) :
    ∀ (l : List MatchContext)
      (acc : List MatchContext × List (List Int) × List MatchState),
      ∀ c ∈ (l.foldl (stepFoldFn pat tv row) acc).1,
        c ∈ acc.1 ∨ (c ∈ l ∧ (c.isCompleted = true ∨ c.matchStart = row)) ∨
          ∃ c0, c0 ∈ l ∧ c = (processContext pat c0 tv).1 := by
  intro l
  induction l with
  | nil => intro acc c hc; exact Or.inl hc
  | cons ctx rest ih =>
    intro acc c hc
    rw [List.foldl_cons] at hc
    rcases ih _ c hc with h | ⟨h1, h2⟩ | ⟨c0, h1, h2⟩
    · by_cases hcond : ctx.isCompleted = true ∨ ctx.matchStart = row
      · unfold stepFoldFn at h
        rw [if_pos hcond] at h
        rcases List.mem_append.mp h with h | h
        · exact Or.inl h
        · rcases List.mem_singleton.mp h with rfl
          exact Or.inr (Or.inl ⟨List.mem_cons_self _ _, hcond⟩)
      · unfold stepFoldFn at h
        rw [if_neg hcond] at h
        rcases List.mem_append.mp h with h | h
        · exact Or.inl h
        · rcases List.mem_singleton.mp h with rfl
          exact Or.inr (Or.inr ⟨ctx, List.mem_cons_self _ _, rfl⟩)
    · exact Or.inr (Or.inl ⟨List.mem_cons_of_mem _ h1, h2⟩)
    · exact Or.inr (Or.inr ⟨c0, List.mem_cons_of_mem _ h1, h2⟩)

theorem mem_orderedInsertCtx {x a : MatchContext} :
    ∀ {l : List MatchContext}, x ∈ orderedInsertCtx a l → x = a ∨ x ∈ l := by
  intro l
  induction l with
  | nil => intro h; simpa [orderedInsertCtx] using h
  | cons b rest ih =>
    intro h
    unfold orderedInsertCtx at h
    split at h
    · rcases List.mem_cons.mp h with h | h
      · exact Or.inl h
      · exact Or.inr h
    · rcases List.mem_cons.mp h with h | h
      · exact Or.inr (by rw [h]; exact List.mem_cons_self _ _)
      · rcases ih h with h | h
        · exact Or.inl h
        · exact Or.inr (List.mem_cons_of_mem _ h)

theorem mem_sortByMatchStart {x : MatchContext} :
    ∀ {l : List MatchContext}, x ∈ sortByMatchStart l → x ∈ l := by
  intro l
  induction l with
  | nil => intro h; simp [sortByMatchStart] at h
  | cons a rest ih =>
    intro h
    unfold sortByMatchStart at h
    rcases mem_orderedInsertCtx h with h | h
    · rw [h]; exact List.mem_cons_self _ _
    · exact List.mem_cons_of_mem _ (ih h)

/-- Absorption only removes contexts. -/
theorem mem_absorbContexts {x : MatchContext} {pat : Pattern}
    {l : List MatchContext} (h : x ∈ absorbContexts pat l) : x ∈ l := by
  unfold absorbContexts at h
  split at h
  · exact h
  · rcases List.mem_filterMap.mp h with ⟨i, _, hf⟩
    split at hf
    · exact absurd hf (by simp)
    · exact mem_sortByMatchStart (List.getElem?_mem hf)

/-- One `processRow` both preserves the start invariant and
re-establishes state dedup in every retained context. -/
theorem processRow_dedup (s : ExecState) (names : List String)
    (hinv : ∀ c ∈ s.contexts, c.matchStart ≤ s.currentRow) :
    ∀ c ∈ (processRow s names).1.contexts,
      c.matchStart ≤ (processRow s names).1.currentRow ∧
        ((c.states.map stateKey).Nodup) := by
  intro c hc
  have hctx : (processRow s names).1.contexts =
      (absorbContexts s.pattern
        (((tryStartNewContext s.pattern (s.currentRow + 1)
            (toVarIds s.pattern names) s.contexts s.nextCtxId).1).foldl
          (stepFoldFn s.pattern (toVarIds s.pattern names) (s.currentRow + 1))
          ([], [], [])).1).filter
        (fun c => c.states ≠ [] ∧ ¬c.isCompleted) := rfl
  have hrow : (processRow s names).1.currentRow = s.currentRow + 1 := rfl
  rw [hctx] at hc
  rw [hrow]
  rcases List.mem_filter.mp hc with ⟨hmem, hpred⟩
  have hpred' : c.states ≠ [] ∧ ¬c.isCompleted = true := of_decide_eq_true hpred
  rcases stepFold_mem s.pattern (toVarIds s.pattern names) (s.currentRow + 1)
      _ _ c (mem_absorbContexts hmem) with h | ⟨h1, h2⟩ | ⟨c0, h1, h2⟩
  · exact absurd h (List.not_mem_nil c)
  · rcases h2 with h2 | h2
    · exact absurd h2 hpred'.2
    · rcases tryStart_mem _ _ _ _ _ c h1 with h | ⟨hnodup, hstart⟩
      · exfalso; have := hinv c h; omega
      · exact ⟨by omega, hnodup⟩
  · refine ⟨?_, ?_⟩
    · rcases tryStart_mem _ _ _ _ _ c0 h1 with h | ⟨_, hstart⟩
      · have := hinv c0 h
        rw [h2, processContext_matchStart]; omega
      · rw [h2, processContext_matchStart]; omega
    · rw [h2, processContext_states]
      exact runStep_activeStates_nodup _ _ _

/-- Run-level: dedup holds after every row of any run. -/
theorem runRows_dedup (rows : List (List String)) :
    ∀ s : ExecState,
      (∀ c ∈ s.contexts, c.matchStart ≤ s.currentRow) →
      (∀ c ∈ s.contexts, ((c.states.map stateKey).Nodup)) →
      ∀ ctx ∈ (runRows s rows).contexts, ((ctx.states.map stateKey).Nodup) := by
  induction rows with
  | nil => intro s _ hn ctx hctx; exact hn ctx hctx
  | cons r rest ih =>
    intro s hinv _ ctx hctx
    rw [runRows] at hctx
    refine ih _ (fun c hc => (processRow_dedup s r hinv c hc).1)
      (fun c hc => (processRow_dedup s r hinv c hc).2) ctx hctx

/-- C6: after every `processRow` of any run, no two states of a
retained context share the `(element_index, counts)` pair — equivalent
states are merged by `mergeStates` (summaries combined into the first
insertion) rather than coexisting. -/
theorem claim_C6 (pat : Pattern) (sk : SkipMode) (om : OutputMode)
    (rows : List (List String)) :
    ∀ ctx ∈ (runRows (initExec pat sk om) rows).contexts,
      ((ctx.states.map stateKey).Nodup) :=
  runRows_dedup rows (initExec pat sk om)
    (by intro c hc; simp [initExec] at hc)
    (by intro c hc; simp [initExec] at hc)

/-- The compiled `A B`, for the C6 witness. -/
def c6Pat : Pattern := getOkPattern (parsePattern "A B" false)

theorem claim_C6_witness :
    ((((runRows (initExec c6Pat SkipMode.pastLast OutputMode.oneRow)
        [["A"]]).contexts.headD default).states.map stateKey).Nodup) :=
  claim_C6 c6Pat SkipMode.pastLast OutputMode.oneRow [["A"]]
    ((runRows (initExec c6Pat SkipMode.pastLast OutputMode.oneRow)
        [["A"]]).contexts.headD default)
    (by decide)

/-! ## C7 — compiled-pattern shape invariants -/

/-- The flattening invariant for one slot of a partially built element
array of length `n`: only `Var` / `#ALT` / `#END` ids occur (the `#FIN`
sentinel is appended by `compileAST` only), and `next` is the `-1`
placeholder or a link no further than one past the end of the block
built so far (`n` itself occurs: the first slot after an alternation). -/
abbrev ElemOk (n : Nat) (e : PatternElement) : Prop :=
  -2 ≤ e.varId ∧ -1 ≤ e.next ∧ e.next ≤ (n : Int)

/-- Every element of a partially built array is `ElemOk` for the
current length. -/
abbrev FlatInv (els : List PatternElement) : Prop :=
  ∀ e ∈ els, ElemOk els.length e

theorem ElemOk_mono (n m : Nat) (e : PatternElement) (h : n ≤ m)
    (he : ElemOk n e) : ElemOk m e := by
  obtain ⟨h1, h2, h3⟩ := he
  exact ⟨h1, h2, by omega⟩

theorem modifyAt_length (l : List PatternElement) (i : Nat)
    (f : PatternElement → PatternElement) :
    (modifyAt l i f).length = l.length := by
  induction l generalizing i with
  | nil => rfl
  | cons x xs ih =>
    cases i with
    | zero => rfl
    | succ n => simp [modifyAt, ih]

theorem mem_modifyAt (l : List PatternElement) (i : Nat)
    (f : PatternElement → PatternElement) (e : PatternElement)
    (h : e ∈ modifyAt l i f) : e ∈ l ∨ ∃ e2 ∈ l, e = f e2 := by
  induction l generalizing i with
  | nil => simp [modifyAt] at h
  | cons x xs ih =>
    cases i with
    | zero =>
      rw [modifyAt, List.mem_cons] at h
      rcases h with h | h
      · exact Or.inr ⟨x, List.mem_cons_self x xs, h⟩
      · exact Or.inl (List.mem_cons_of_mem _ h)
    | succ n =>
      rw [modifyAt, List.mem_cons] at h
      rcases h with h | h
      · exact Or.inl (h ▸ List.mem_cons_self x xs)
      · rcases ih n h with h2 | ⟨e2, he2, hf⟩
        · exact Or.inl (List.mem_cons_of_mem _ h2)
        · exact Or.inr ⟨e2, List.mem_cons_of_mem _ he2, hf⟩

/-- Rewriting one slot's `next` to an in-range index preserves the
invariant. -/
theorem FlatInv_modifyAt_next (acc : List PatternElement) (p v : Nat)
    (h : FlatInv acc) (hle : v ≤ acc.length) :
    FlatInv (modifyAt acc p (fun e => { e with next := (v : Int) })) := by
  intro e he
  rw [modifyAt_length]
  rcases mem_modifyAt _ _ _ _ he with h2 | ⟨e2, he2, hf⟩
  · exact h e h2
  · obtain ⟨h1, _, _⟩ := h e2 he2
    subst hf
    refine ⟨h1, ?_, ?_⟩
    · show (-1 : Int) ≤ (v : Int)
      omega
    · show ((v : Int)) ≤ ((acc.length : Nat) : Int)
      omega

theorem setAltJumps_length (s : List Nat) (l : List PatternElement) :
    (setAltJumps s l).length = l.length := by
  induction s generalizing l with
  | nil => rfl
  | cons s1 rest ih =>
    cases rest with
    | nil => rfl
    | cons s2 rest2 =>
      rw [setAltJumps, ih, modifyAt_length]

theorem mem_setAltJumps (s : List Nat) (l : List PatternElement)
    (e : PatternElement) (h : e ∈ setAltJumps s l) :
    ∃ e2 ∈ l, e.varId = e2.varId ∧ e.next = e2.next := by
  induction s generalizing l with
  | nil => exact ⟨e, h, rfl, rfl⟩
  | cons s1 rest ih =>
    cases rest with
    | nil => exact ⟨e, h, rfl, rfl⟩
    | cons s2 rest2 =>
      rw [setAltJumps] at h
      rcases ih _ h with ⟨e2, he2, hv, hn⟩
      rcases mem_modifyAt _ _ _ _ he2 with h2 | ⟨e3, he3, hf⟩
      · exact ⟨e2, h2, hv, hn⟩
      · exact ⟨e3, he3, by rw [hv, hf], by rw [hn, hf]⟩

theorem FlatInv_setAltJumps (s : List Nat) (l : List PatternElement)
    (h : FlatInv l) : FlatInv (setAltJumps s l) := by
  intro e he
  rw [setAltJumps_length]
  rcases mem_setAltJumps _ _ _ he with ⟨e2, he2, hv, hn⟩
  obtain ⟨h1, h2, h3⟩ := h e2 he2
  exact ⟨by omega, by omega, by omega⟩

/-- Appending one well-formed element preserves the invariant. -/
theorem FlatInv_append_one (els : List PatternElement) (e : PatternElement)
    (h : FlatInv els) (h1 : -2 ≤ e.varId) (h2 : -1 ≤ e.next)
    (h3 : e.next ≤ ((els.length : Int) + 1)) : FlatInv (els ++ [e]) := by
  intro x hx
  simp only [List.length_append, List.length_cons, List.length_nil]
  rcases List.mem_append.mp hx with hx | hx
  · obtain ⟨a, b, c⟩ := h x hx
    exact ⟨a, b, by push_cast; omega⟩
  · rw [List.mem_singleton] at hx
    subst hx
    exact ⟨h1, h2, by push_cast; omega⟩

/-- The arm-end rewiring fold of the `alt` flattening preserves length
and the invariant when its target is in range. -/
theorem flatFold_inv (afterAltIdx : Nat) (ends : List Nat) :
    ∀ acc : List PatternElement, FlatInv acc → afterAltIdx ≤ acc.length →
      (ends.foldl
        (fun acc endPos =>
          if (acc.getD endPos default).next = -1 then
            modifyAt acc endPos (fun e => { e with next := (afterAltIdx : Int) })
          else acc) acc).length = acc.length ∧
      FlatInv (ends.foldl
        (fun acc endPos =>
          if (acc.getD endPos default).next = -1 then
            modifyAt acc endPos (fun e => { e with next := (afterAltIdx : Int) })
          else acc) acc) := by
  induction ends with
  | nil => intro acc h _; exact ⟨rfl, h⟩
  | cons p rest ih =>
    intro acc h hle
    rw [List.foldl_cons]
    by_cases hc : (acc.getD p default).next = -1
    · rw [if_pos hc]
      have hlen := modifyAt_length acc p
        (fun e => { e with next := (afterAltIdx : Int) })
      have hinv := FlatInv_modifyAt_next acc p afterAltIdx h hle
      obtain ⟨hl2, hi2⟩ := ih _ hinv (by omega)
      exact ⟨by rw [hl2, hlen], hi2⟩
    · rw [if_neg hc]
      exact ih acc h hle

theorem mapIdxGo_length (f : Nat → PatternElement → PatternElement)
    (i : Nat) (l : List PatternElement) :
    (mapIdxGo f i l).length = l.length := by
  induction l generalizing i with
  | nil => rfl
  | cons x xs ih => simp [mapIdxGo, ih]

theorem mem_mapIdxGo (f : Nat → PatternElement → PatternElement)
    (i : Nat) (l : List PatternElement) (e : PatternElement)
    (h : e ∈ mapIdxGo f i l) : ∃ j, ∃ e2 ∈ l, e = f j e2 := by
  induction l generalizing i with
  | nil => simp [mapIdxGo] at h
  | cons x xs ih =>
    rw [mapIdxGo, List.mem_cons] at h
    rcases h with h | h
    · exact ⟨i, x, List.mem_cons_self x xs, h⟩
    · rcases ih (i + 1) h with ⟨j, e2, he2, hf⟩
      exact ⟨j, e2, List.mem_cons_of_mem _ he2, hf⟩

/-- Main flattening invariant: from a well-formed partial array,
`flattenRun` only grows the array, keeps it well-formed, and every
reported alternative-start index is within (or just past) the result. -/
theorem flattenRun_inv (varList : List String) :
    ∀ fuel call els, FlatInv els →
      els.length ≤ (flattenRun varList fuel call els).1.length ∧
      FlatInv (flattenRun varList fuel call els).1 ∧
      ∀ s ∈ (flattenRun varList fuel call els).2.1,
        s ≤ (flattenRun varList fuel call els).1.length := by
  intro fuel
  induction fuel with
  | zero =>
    intro call els h
    exact ⟨Nat.le_refl _, h, by intro s hs; simp [flattenRun] at hs⟩
  | succ fuel ih =>
    intro call els h
    match call with
    | FlatCall.node ast depth =>
      match ast with
      | AST.seq items =>
        obtain ⟨h1, h2, _⟩ := ih (FlatCall.items items depth) els h
        refine ⟨h1, h2, ?_⟩
        intro s hs
        simp [flattenRun] at hs
      | AST.var name mn mx rel =>
        simp only [flattenRun]
        refine ⟨by simp, ?_, by intro s hs; simp at hs⟩
        refine FlatInv_append_one els _ h ?_ ?_ ?_
        · show (-2 : Int) ≤ ((varList.indexOf name : Nat) : Int)
          omega
        · show (-1 : Int) ≤ (-1 : Int)
          omega
        · show (-1 : Int) ≤ ((els.length : Nat) : Int) + 1
          omega
      | AST.group content mn mx rel =>
        obtain ⟨h1, h2, _⟩ := ih (FlatCall.node content (depth + 1)) els h
        simp only [flattenRun]
        by_cases hq : mn = 1 ∧ mx = some 1
        · rw [if_pos hq]
          exact ⟨h1, h2, by intro s hs; simp at hs⟩
        · rw [if_neg hq]
          refine ⟨by simp; omega, ?_, by intro s hs; simp at hs⟩
          refine FlatInv_append_one _ _ h2 ?_ ?_ ?_
          · show (-2 : Int) ≤ (-2 : Int)
            omega
          · show (-1 : Int) ≤ (-1 : Int)
            omega
          · show (-1 : Int) ≤
              ((((flattenRun varList fuel (FlatCall.node content (depth + 1))
                els).1.length : Nat) : Int)) + 1
            omega
      | AST.alt alts =>
        have hinv1 : FlatInv (els ++ [{ varId := (-1 : Int), depth := depth }]) := by
          refine FlatInv_append_one els _ h ?_ ?_ ?_
          · show (-2 : Int) ≤ (-1 : Int)
            omega
          · show (-1 : Int) ≤ (-1 : Int)
            omega
          · show (-1 : Int) ≤ ((els.length : Nat) : Int) + 1
            omega
        obtain ⟨hl1, hi1, hs1⟩ := ih
          (FlatCall.alts alts (depth + 1))
          (els ++ [{ varId := (-1 : Int), depth := depth }]) hinv1
        simp only [flattenRun]
        set r := flattenRun varList fuel (FlatCall.alts alts (depth + 1))
          (els ++ [{ varId := (-1 : Int), depth := depth }]) with hr
        -- the three rewiring stages preserve length and the invariant
        have hstage3 :
            ∀ els3 : List PatternElement, els3.length = r.1.length → FlatInv els3 →
              (r.2.2.foldl
                (fun acc endPos =>
                  if (acc.getD endPos default).next = -1 then
                    modifyAt acc endPos
                      (fun e => { e with next := (r.1.length : Int) })
                  else acc) els3).length = els3.length ∧
              FlatInv (r.2.2.foldl
                (fun acc endPos =>
                  if (acc.getD endPos default).next = -1 then
                    modifyAt acc endPos
                      (fun e => { e with next := (r.1.length : Int) })
                  else acc) els3) := by
          intro els3 hlen3 hinv3
          exact flatFold_inv r.1.length r.2.2 els3 hinv3 (by omega)
        match hbr : r.2.1 with
        | [] =>
          obtain ⟨hfl, hfi⟩ := hstage3 (setAltJumps [] r.1) (by rw [setAltJumps_length])
            (FlatInv_setAltJumps [] r.1 hi1)
          rw [setAltJumps_length] at hfl
          refine ⟨?_, hfi, by intro s hs; simp at hs⟩
          rw [hfl]
          simp only [List.length_append, List.length_cons, List.length_nil] at hl1
          omega
        | first :: restBr =>
          have hfirst : first ≤ r.1.length := hs1 first (by rw [hbr]; exact List.mem_cons_self _ _)
          have hinv2 : FlatInv (modifyAt r.1 els.length
              (fun e => { e with next := (first : Int) })) :=
            FlatInv_modifyAt_next r.1 els.length first hi1 hfirst
          have hlen2 : (modifyAt r.1 els.length
              (fun e => { e with next := (first : Int) })).length = r.1.length :=
            modifyAt_length _ _ _
          have hinv3 := FlatInv_setAltJumps (first :: restBr) _ hinv2
          have hlen3 : (setAltJumps (first :: restBr)
              (modifyAt r.1 els.length
                (fun e => { e with next := (first : Int) }))).length = r.1.length := by
            rw [setAltJumps_length, hlen2]
          obtain ⟨hfl, hfi⟩ := hstage3 _ hlen3 hinv3
          rw [hlen3] at hfl
          refine ⟨?_, hfi, by intro s hs; simp at hs⟩
          rw [hfl]
          simp only [List.length_append, List.length_cons, List.length_nil] at hl1
          omega
    | FlatCall.items l depth =>
      match l with
      | [] =>
        exact ⟨Nat.le_refl _, h, by intro s hs; simp [flattenRun] at hs⟩
      | item :: rest =>
        obtain ⟨ha1, ha2, _⟩ := ih (FlatCall.node item depth) els h
        obtain ⟨hb1, hb2, _⟩ := ih (FlatCall.items rest depth)
          (flattenRun varList fuel (FlatCall.node item depth) els).1 ha2
        refine ⟨by simp only [flattenRun]; omega, by simp only [flattenRun]; exact hb2, ?_⟩
        intro s hs
        simp [flattenRun] at hs
    | FlatCall.alts l depth =>
      match l with
      | [] =>
        exact ⟨Nat.le_refl _, h, by intro s hs; simp [flattenRun] at hs⟩
      | a :: rest =>
        obtain ⟨ha1, ha2, _⟩ := ih (FlatCall.node a depth) els h
        obtain ⟨hb1, hb2, hb3⟩ := ih (FlatCall.alts rest depth)
          (flattenRun varList fuel (FlatCall.node a depth) els).1 ha2
        simp only [flattenRun]
        refine ⟨by omega, hb2, ?_⟩
        intro s hs
        rw [List.mem_cons] at hs
        rcases hs with hs | hs
        · omega
        · exact hb3 s hs

/-- `compileAST` output shape: all the `#FIN`-and-`next` facts of C7,
for every AST and fuel (the placeholder rewrite maps `-1` to the next
index or the `#FIN` slot; surviving links stay in range). -/
theorem compileAST_inv (fuel : Nat) (ast : AST) :
    (∀ e ∈ (compileAST fuel ast).elements.dropLast, e.varId ≠ -3) ∧
    (compileAST fuel ast).elements.getLast? = some { varId := -3 } ∧
    (∀ e ∈ (compileAST fuel ast).elements, e.varId ≠ -3 →
      0 ≤ e.next ∧ e.next < ((compileAST fuel ast).elements.length : Int)) := by
  have hflat : FlatInv (flattenAST (collectVariables fuel ast []) fuel ast 0 []) :=
    (flattenRun_inv (collectVariables fuel ast []) fuel (FlatCall.node ast 0) []
      (by intro e he; simp at he)).2.1
  have helems : (compileAST fuel ast).elements =
      mapIdxGo (fun i e =>
        if e.next = -1 then
          { e with next :=
            if i < (flattenAST (collectVariables fuel ast []) fuel ast 0 []).length - 1
            then (i + 1 : Int)
            else ((flattenAST (collectVariables fuel ast []) fuel ast 0 []).length : Int) }
        else e) 0 (flattenAST (collectVariables fuel ast []) fuel ast 0 []) ++
      [{ varId := -3 }] := rfl
  have hmem : ∀ e ∈ mapIdxGo (fun i e =>
      if e.next = -1 then
        { e with next :=
          if i < (flattenAST (collectVariables fuel ast []) fuel ast 0 []).length - 1
          then (i + 1 : Int)
          else ((flattenAST (collectVariables fuel ast []) fuel ast 0 []).length : Int) }
      else e) 0 (flattenAST (collectVariables fuel ast []) fuel ast 0 []),
      -2 ≤ e.varId ∧ 0 ≤ e.next ∧
        e.next ≤ ((flattenAST (collectVariables fuel ast []) fuel ast 0 []).length : Int) := by
    intro e he
    rcases mem_mapIdxGo _ _ _ _ he with ⟨j, e2, he2, hf⟩
    obtain ⟨h1, h2, h3⟩ := hflat e2 he2
    subst hf
    by_cases hn : e2.next = -1
    · rw [if_pos hn]
      refine ⟨h1, ?_, ?_⟩
      · show (0 : Int) ≤
          (if j < (flattenAST (collectVariables fuel ast []) fuel ast 0 []).length - 1
           then (j + 1 : Int)
           else ((flattenAST (collectVariables fuel ast []) fuel ast 0 []).length : Int))
        split_ifs <;> omega
      · show (if j < (flattenAST (collectVariables fuel ast []) fuel ast 0 []).length - 1
           then (j + 1 : Int)
           else ((flattenAST (collectVariables fuel ast []) fuel ast 0 []).length : Int)) ≤
          ((flattenAST (collectVariables fuel ast []) fuel ast 0 []).length : Int)
        split_ifs <;> omega
    · rw [if_neg hn]
      exact ⟨h1, by omega, by omega⟩
  refine ⟨?_, ?_, ?_⟩
  · rw [helems, List.dropLast_concat]
    intro e he
    have := hmem e he
    omega
  · rw [helems]
    simp
  · intro e he hne
    rw [helems] at he
    rcases List.mem_append.mp he with he | he
    · obtain ⟨_, hb, hc⟩ := hmem e he
      refine ⟨hb, ?_⟩
      rw [helems]
      simp only [List.length_append, List.length_cons, List.length_nil,
        mapIdxGo_length]
      push_cast
      omega
    · rw [List.mem_singleton] at he
      subst he
      exact absurd rfl hne

/-- A successful `parsePattern` is a `compileAST` output (for the token
fuel), whatever the tokenizer, parser and optimizer produced. -/
theorem parsePattern_eq_compile (s : String) (opt : Bool) (p : Pattern)
    (h : parsePattern s opt = Except.ok p) :
    ∃ fuel ast, p = compileAST fuel ast := by
  rw [parsePattern] at h
  cases htok : tokenize s with
  | error e =>
    rw [htok] at h
    simp [Bind.bind, Except.bind] at h
  | ok tokens =>
    rw [htok] at h
    simp only [Bind.bind, Except.bind] at h
    cases hps : parseSequence (tokens.length + 1) tokens with
    | error e =>
      rw [hps] at h
      simp at h
    | ok pr =>
      rw [hps] at h
      simp only [pure, Except.pure, Except.ok.injEq] at h
      exact ⟨(tokens.length + 4) * 32, _, h.symm⟩

/-- C7: every compiled pattern has exactly one `#FIN` element, at the
last index, with `next = -1`; and every non-`#FIN` element's `next` is
a valid element index (all `-1` placeholders having been rewritten to
the following index or the `#FIN` index). -/
theorem claim_C7 (s : String) (opt : Bool) (p : Pattern)
    (h : parsePattern s opt = Except.ok p) :
    p.elements ≠ [] ∧
    (∀ e ∈ p.elements.dropLast, e.varId ≠ -3) ∧
    (∃ fin, p.elements.getLast? = some fin ∧ fin.varId = -3 ∧ fin.next = -1) ∧
    (∀ e ∈ p.elements, e.varId ≠ -3 →
      0 ≤ e.next ∧ e.next < (p.elements.length : Int)) := by
  obtain ⟨fuel, ast, rfl⟩ := parsePattern_eq_compile s opt p h
  obtain ⟨h1, h2, h3⟩ := compileAST_inv fuel ast
  refine ⟨?_, h1, ⟨{ varId := -3 }, h2, rfl, rfl⟩, h3⟩
  intro hne
  rw [hne] at h2
  simp at h2

/-- The compiled `(A | B C)+` (with optimization), for the C7 witness. -/
def c7Pat : Pattern := getOkPattern (parsePattern "(A | B C)+" true)

theorem claim_C7_witness :
    c7Pat.elements ≠ [] ∧
    (∀ e ∈ c7Pat.elements.dropLast, e.varId ≠ -3) ∧
    (∃ fin, c7Pat.elements.getLast? = some fin ∧ fin.varId = -3 ∧ fin.next = -1) ∧
    (∀ e ∈ c7Pat.elements, e.varId ≠ -3 →
      0 ≤ e.next ∧ e.next < (c7Pat.elements.length : Int)) :=
  claim_C7 "(A | B C)+" true c7Pat (by rfl)

/-! ## C4 — `PAST_LAST` non-overlap of consecutive emissions -/

/-- The emission invariant: the emitted list is strictly non-overlapping
in order, and `lastEnd` is the last emission's `matchEnd` (vacuous while
nothing has been emitted). -/
abbrev EmitOk (es : List EmitResult) (lastEnd : Int) : Prop :=
  es.Chain' (fun a b => a.matchEnd < b.matchStart) ∧
  ∀ x, es.getLast? = some x → x.matchEnd = lastEnd

theorem emitContext_matchStart (pat : Pattern) (om : OutputMode)
    (ctx : MatchContext) :
    (emitContext pat om ctx).matchStart = ctx.matchStart := rfl

theorem emitContext_matchEnd (pat : Pattern) (om : OutputMode)
    (ctx : MatchContext) :
    (emitContext pat om ctx).matchEnd = ctx.matchEnd := rfl

/-- Emitting one result past the previous end keeps the invariant. -/
theorem EmitOk_append (es : List EmitResult) (lastEnd : Int) (r : EmitResult)
    (h : EmitOk es lastEnd) (hgt : lastEnd < r.matchStart) :
    EmitOk (es ++ [r]) r.matchEnd := by
  obtain ⟨hch, hlast⟩ := h
  constructor
  · rw [List.chain'_append]
    refine ⟨hch, List.chain'_singleton r, ?_⟩
    intro x hx y hy
    simp only [List.head?_cons, Option.mem_def, Option.some.injEq] at hy
    subst hy
    rw [Option.mem_def] at hx
    have := hlast x hx
    omega
  · intro x hx
    have hr : (es ++ [r]).getLast? = some r := by simp
    rw [hr, Option.some.injEq] at hx
    subst hx
    rfl

/-- The immediate-emit loop preserves the invariant (stated against an
arbitrary already-emitted prefix `pre`): the `PAST_LAST` guard discards
any completed context starting at or before `lastEnd`, and an emission
advances `lastEnd` to its own `matchEnd`. -/
theorem emitImmediateLoop_inv (pat : Pattern) (om : OutputMode)
    (es : Option Int) (hA : Bool) (pre : List EmitResult) :
    ∀ (ctxs : List MatchContext) (acc : EmitAcc),
      EmitOk (pre ++ acc.emitted) acc.lastEnd →
      EmitOk
        (pre ++ (emitImmediateLoop pat SkipMode.pastLast om es hA ctxs acc).emitted)
        (emitImmediateLoop pat SkipMode.pastLast om es hA ctxs acc).lastEnd := by
  intro ctxs
  induction ctxs with
  | nil => intro acc h; exact h
  | cons ctx rest ih =>
    intro acc h
    rw [emitImmediateLoop]
    split_ifs with h1 h2 h3 h4
    · exact ih acc h
    · exact ih acc h
    · refine ih _ ?_
      rw [← List.append_assoc]
      have hgt : acc.lastEnd < ctx.matchStart := by
        by_contra hc
        exact h4 ⟨rfl, by omega⟩
      have key := EmitOk_append (pre ++ acc.emitted) acc.lastEnd
        (emitContext pat om ctx) h (by rw [emitContext_matchStart]; omega)
      rw [emitContext_matchEnd] at key
      exact key
    · exact ih _ h
    · exact ih acc h

/-- The queue loop preserves the invariant: entries overlapping
`lastEnd` are discarded under `PAST_LAST`, emissions advance it. -/
theorem emitQueueLoop_inv (pat : Pattern) (om : OutputMode)
    (aStart : Option Int) (pre : List EmitResult) :
    ∀ (queue : List MatchContext) (lastEnd : Int) (emitted : List EmitResult),
      EmitOk (pre ++ emitted) lastEnd →
      EmitOk
        (pre ++ (emitQueueLoop pat SkipMode.pastLast om aStart queue lastEnd emitted).2.2)
        (emitQueueLoop pat SkipMode.pastLast om aStart queue lastEnd emitted).2.1 := by
  intro queue
  induction queue with
  | nil => intro lastEnd emitted h; exact h
  | cons ctx rest ih =>
    intro lastEnd emitted h
    rw [emitQueueLoop]
    split_ifs with h1 h2 h3
    · exact h
    · exact ih lastEnd emitted h
    · exact h
    · refine ih ctx.matchEnd (emitted ++ [emitContext pat om ctx]) ?_
      rw [← List.append_assoc]
      have hgt : lastEnd < ctx.matchStart := by
        by_contra hc
        exact h2 ⟨rfl, by omega⟩
      have key := EmitOk_append (pre ++ emitted) lastEnd
        (emitContext pat om ctx) h (by rw [emitContext_matchStart]; omega)
      rw [emitContext_matchEnd] at key
      exact key

/-- `emitRows` under `PAST_LAST` preserves the invariant, whatever the
contexts and queue. -/
theorem emitRows_inv (pat : Pattern) (om : OutputMode)
    (contexts queue0 : List MatchContext) (pre : List EmitResult)
    (lastEnd0 : Int) (h : EmitOk pre lastEnd0) :
    EmitOk
      (pre ++ (emitRows pat SkipMode.pastLast om contexts queue0 lastEnd0).2.2)
      (emitRows pat SkipMode.pastLast om contexts queue0 lastEnd0).2.1 := by
  have h0 : EmitOk (pre ++ ([] : List EmitResult)) lastEnd0 := by
    rw [List.append_nil]
    exact h
  exact emitQueueLoop_inv pat om _ pre _ _ _
    (emitImmediateLoop_inv pat om _ _ pre contexts ⟨queue0, lastEnd0, []⟩ h0)

/-- One `processRow` preserves the invariant when the skip mode is
`PAST_LAST`. -/
theorem processRow_emitOk (st : ExecState) (names : List String)
    (hsk : st.skipMode = SkipMode.pastLast)
    (h : EmitOk st.emittedResults st.lastEmittedEnd) :
    EmitOk (processRow st names).1.emittedResults
      (processRow st names).1.lastEmittedEnd := by
  have key := emitRows_inv st.pattern st.outputMode
    (absorbContexts st.pattern
      ((tryStartNewContext st.pattern (st.currentRow + 1)
          (toVarIds st.pattern names) st.contexts st.nextCtxId).1.foldl
        (stepFoldFn st.pattern (toVarIds st.pattern names) (st.currentRow + 1))
        ([], [], [])).1)
    st.completedContexts st.emittedResults st.lastEmittedEnd h
  rw [← hsk] at key
  exact key

/-- Run-level preservation of the emission invariant. -/
theorem runRows_emitOk (rows : List (List String)) :
    ∀ st : ExecState, st.skipMode = SkipMode.pastLast →
      EmitOk st.emittedResults st.lastEmittedEnd →
      EmitOk (runRows st rows).emittedResults
        (runRows st rows).lastEmittedEnd := by
  induction rows with
  | nil => intro st _ h; exact h
  | cons r rest ih =>
    intro st hsk h
    rw [runRows]
    exact ih (processRow st r).1
      (by rw [show (processRow st r).1.skipMode = st.skipMode from rfl]; exact hsk)
      (processRow_emitOk st r hsk h)

/-- C4: under SKIP `PAST_LAST`, for every pattern, output mode and row
stream, every consecutively emitted pair `M1`, `M2` of the run satisfies
`M2.match_start > M1.match_end` — overlapping completed contexts are
discarded by the emit loops instead of emitted. -/
theorem claim_C4 (pat : Pattern) (om : OutputMode) (rows : List (List String)) :
    ((runRows (initExec pat SkipMode.pastLast om) rows).emittedResults).Chain'
      (fun a b => a.matchEnd < b.matchStart) :=
  (runRows_emitOk rows (initExec pat SkipMode.pastLast om) rfl
    ⟨List.chain'_nil, by intro x hx; exact Option.noConfusion hx⟩).1

end RPR

